import Mathlib

/-!
Verification of the dotman dotfiles manager against its specification.

The development shallowly embeds the Go sources:
  * `internal/config` (path expansion and the home-directory security check),
  * `internal/fileops` (move / symlink / remove / stat operations),
  * `internal/index` (the JSON manifest),
  * `internal/cli` (`runAdd`, `runRemove`, `runDeploy`, `runFix`,
    `runCleanup`, `findUnmanagedFiles`, and the multi-path drivers).

Paths are modelled as strings over `/`-separated segments, exactly as Go's
`path/filepath` treats them on Unix.  The filesystem is an association list
from canonical absolute keys (lists of segments) to nodes (regular file with
content and permissions, directory, or symbolic link with its raw target
string).  `os.Stat` follows symbolic links with a bounded chain depth,
`os.Lstat` does not, mirroring the syscalls used by the sources.  The git
subprocess layer is out of the specification's scope ("opaque external
collaborator") and is modelled as an always-succeeding no-op; the JSON
(de)serialisation of the manifest is abstracted by keeping the manifest as a
separate state component written by `index.Save`.  Environmental failures of
the `symlink` syscall (permissions, quota) are modelled by an explicit set of
denied link locations threaded through the operations that create links.
-/

set_option autoImplicit false

namespace Dotman

/-! ## Path segments -/

/-- A path segment: a run of characters between `/` separators. -/
abbrev Seg := List Char

/-- A canonical absolute path, as its list of segments. -/
abbrev Key := List Seg

/-- `string(filepath.Separator)` on Unix. -/
def sepStr : String := "/"

/-- Go `strings.HasPrefix` (also `filepath.HasPrefix` on Unix): byte-level
prefix test, modelled on the character list. -/
def goHasPrefix (s pre : String) : Bool := pre.data.isPrefixOf s.data

/-- Go `strings.Contains`: substring test. -/
def goContains (s sub : String) : Bool := decide (sub.data <:+: s.data)

/-- Go `strings.HasSuffix`: suffix test. -/
def goHasSuffix (s suf : String) : Bool := suf.data.isSuffixOf s.data

/-- Accumulator worker for `segsOf`: `cur` is the pending segment read so
far, in reverse order. -/
def segsOfAux : List Char → Seg → List Seg
  | [], cur => if cur = [] then [] else [cur.reverse]
  | c :: rest, cur =>
    if c = '/' then
      (if cur = [] then segsOfAux rest [] else cur.reverse :: segsOfAux rest [])
    else segsOfAux rest (c :: cur)

/-- Split a character list at `/` separators, dropping empty segments, as
Go's `filepath` segment scanning does. -/
def segsOf (cs : List Char) : List Seg := segsOfAux cs []

/-- Join segments with `/`, without a leading separator (relative form). -/
def joinR : List Seg → List Char
  | [] => []
  | [s] => s
  | s :: rest => s ++ '/' :: joinR rest

/-- Join segments into an absolute path string. -/
def joinSegs (l : List Seg) : String := ⟨'/' :: joinR l⟩

/-- Join segments into a relative path string. -/
def joinRelStr (l : List Seg) : String := ⟨joinR l⟩

/-- The `..` segment. -/
def dotdot : Seg := ['.', '.']

/-- The `.` segment. -/
def dotSeg : Seg := ['.']

/-- One step of Go `filepath.Clean` for a rooted path: `.` is dropped and
`..` pops the last collected segment (or is dropped at the root). -/
def cleanStep (acc : Key) (seg : Seg) : Key :=
  if seg = dotSeg then acc
  else if seg = dotdot then acc.dropLast
  else acc ++ [seg]

/-- Go `filepath.Clean` for a rooted path, at the segment level. -/
def cleanSegs (l : Key) : Key := l.foldl cleanStep []

/-- The canonical key of an absolute path string: split into segments and
clean.  This also models how the kernel resolves textual `.`/`..`/`//`
components when a syscall receives an absolute path. -/
def pathKey (s : String) : Key := cleanSegs (segsOf s.data)

/-- Go `filepath.Clean` for a rooted path, as a string transformation. -/
def cleanAbs (s : String) : String := joinSegs (pathKey s)

/-- A string that is a cleaned rooted path (fixed by `cleanAbs`). -/
def IsCanon (s : String) : Prop := cleanAbs s = s

instance decIsCanon (s : String) : Decidable (IsCanon s) :=
  inferInstanceAs (Decidable (cleanAbs s = s))

/-- A segment fit to appear in a path: nonempty and `/`-free. -/
def GoodSeg (s : Seg) : Prop := s ≠ [] ∧ '/' ∉ s

/-- All segments of a key are fit to appear in a path. -/
def GoodSegs (l : Key) : Prop := ∀ s ∈ l, GoodSeg s

/-- A key in fully cleaned form: good segments, none of them `.` or `..`. -/
def PureSegs (l : Key) : Prop :=
  GoodSegs l ∧ ∀ s ∈ l, s ≠ dotSeg ∧ s ≠ dotdot

/-- One step of Go `filepath.Clean` for a relative path: leading `..`
segments are preserved instead of being dropped. -/
def cleanRelStep (acc : Key) (seg : Seg) : Key :=
  if seg = dotSeg then acc
  else if seg = dotdot then
    (if acc = [] ∨ acc.getLast? = some dotdot then acc ++ [dotdot] else acc.dropLast)
  else acc ++ [seg]

/-- Go `filepath.Clean` for a relative path, as a string transformation
(`Clean("")` is `"."`). -/
def cleanRel (s : String) : String :=
  match (segsOf s.data).foldl cleanRelStep [] with
  | [] => "."
  | l => joinRelStr l

/-- Go `filepath.Join(a, b)` = `Clean(a + "/" + b)`, for an absolute `a`. -/
def goJoin (a b : String) : String := cleanAbs (a ++ sepStr ++ b)

/-- Go `filepath.IsAbs` on Unix. -/
def isAbsStr (s : String) : Bool := goHasPrefix s "/"

/-- Go `filepath.Abs` relative to the working directory `cwd` (assumed
absolute): `Clean(path)` when rooted, else `Clean(Join(cwd, path))`. -/
def goAbs (cwd path : String) : String :=
  if isAbsStr path then cleanAbs path else goJoin cwd path

/-- Go `filepath.Dir`: everything up to the final separator, cleaned.
For the rooted inputs used by the sources this drops the last segment. -/
def goDir (s : String) : String := joinSegs ((segsOf s.data).dropLast)

/-- The segment tail of Go `filepath.Rel` on two cleaned rooted paths:
drop the common leading segments, then prepend one `..` per remaining
base segment. -/
def relSegs : Key → Key → Key
  | [], t => t
  | b, [] => List.replicate b.length dotdot
  | x :: b', y :: t' =>
    if x = y then relSegs b' t'
    else List.replicate (b'.length + 1) dotdot ++ y :: t'

/-- Go `filepath.Rel(base, targ)` for rooted inputs (both are cleaned
internally; the result is `"."` when they coincide). -/
def goRelStr (base targ : String) : String :=
  match relSegs (pathKey base) (pathKey targ) with
  | [] => "."
  | l => joinRelStr l

/-! ## The manifest (internal/index and pkg/types) -/

/-- `types.FileType`. -/
inductive FileType where
  | file
  | directory
deriving DecidableEq, Repr

/-- `types.ManagedFile`: one tracked path's record in the manifest. -/
structure ManagedFile where
  originalPath : String
  repoPath : String
  ftype : FileType
  addedDate : Nat
deriving DecidableEq, Repr

/-- `types.Index`: the manifest. -/
structure Index where
  version : String
  managedFiles : List ManagedFile
deriving DecidableEq, Repr

/-- The empty index produced by `index.Load` when `index.json` is absent. -/
def emptyIndex : Index := ⟨"1.0", []⟩

/-- `index.Load`, with the on-disk manifest abstracted as an optional
in-memory `Index` (a missing file yields the empty index). -/
def indexLoad : Option Index → Index
  | none => emptyIndex
  | some idx => idx

/-- `index.AddFile`: appends a record unconditionally (`time.Now()` is the
explicit `now` argument). -/
def AddFile (idx : Index) (originalPath repoPath : String) (fileType : FileType)
    (now : Nat) : Index :=
  { idx with managedFiles := idx.managedFiles ++ [⟨originalPath, repoPath, fileType, now⟩] }

/-- Helper for `index.RemoveFile`: removes the first record whose
`original_path` matches and reports whether one was found. -/
def removeFirst : List ManagedFile → String → List ManagedFile × Bool
  | [], _ => ([], false)
  | f :: rest, p =>
    if f.originalPath = p then (rest, true)
    else
      let r := removeFirst rest p
      (f :: r.1, r.2)

/-- `index.RemoveFile`. -/
def RemoveFile (idx : Index) (originalPath : String) : Index × Bool :=
  let r := removeFirst idx.managedFiles originalPath
  ({ idx with managedFiles := r.1 }, r.2)

/-- `index.FindFile`: first record with the given `original_path`. -/
def FindFile (idx : Index) (originalPath : String) : Option ManagedFile :=
  idx.managedFiles.find? (fun f => f.originalPath = originalPath)

/-- `index.IsManaged`. -/
def IsManaged (idx : Index) (originalPath : String) : Bool :=
  (FindFile idx originalPath).isSome

/-- `index.GetAllFiles`. -/
def GetAllFiles (idx : Index) : List ManagedFile := idx.managedFiles

/-- `index.Count`. -/
def Count (idx : Index) : Nat := idx.managedFiles.length

/-! ## The filesystem model -/

/-- A filesystem node: regular file (content and permission bits),
directory, or symbolic link carrying its raw target string. -/
inductive FNode where
  | file (content : String) (perm : Nat)
  | dir
  | link (target : String)
deriving DecidableEq, Repr

/-- A filesystem: an association list from canonical absolute keys to
nodes. -/
abbrev Fs := List (Key × FNode)

/-- First-match association lookup (the `lstat` view of an entry). -/
def lookupKey : Fs → Key → Option FNode
  | [], _ => none
  | (k, n) :: rest, q => if k = q then some n else lookupKey rest q

/-- Drop every entry at exactly the given key. -/
def eraseKey (fs : Fs) (q : Key) : Fs := fs.filter (fun e => e.1 ≠ q)

/-- Whether `b` lies strictly below `a` in the path tree. -/
def keyStrictUnder (a b : Key) : Bool := decide (a <+: b) && decide (a ≠ b)

/-- Whether the filesystem holds an entry strictly below `k`. -/
def hasDescendant (fs : Fs) (k : Key) : Bool := fs.any (fun e => keyStrictUnder k e.1)

/-- Rewrite a key under `s` to the corresponding key under `d`. -/
def shiftKey (s d k : Key) : Key := d ++ k.drop s.length

/-- Move the whole subtree rooted at `s` to `d` (the key rewrite applied by
`rename(2)` to a directory's contents). -/
def renameTree (fs : Fs) (s d : Key) : Fs :=
  fs.map (fun e => if s <+: e.1 then (shiftKey s d e.1, e.2) else e)

/-- The Linux symlink-chain resolution bound. -/
def maxLinkDepth : Nat := 40

/-- Resolve a key through trailing symbolic links, with bounded depth
(`os.Stat` semantics; link targets are absolute strings in this codebase). -/
def statKn (fs : Fs) : Nat → Key → Option FNode
  | 0, _ => none
  | fuel + 1, k =>
    match lookupKey fs k with
    | some (FNode.link t) => statKn fs fuel (pathKey t)
    | r => r

/-- `os.Stat` on a key. -/
def statKey (fs : Fs) (k : Key) : Option FNode := statKn fs maxLinkDepth k

/-- `os.Stat` on a path string. -/
def statPath (fs : Fs) (p : String) : Option FNode := statKey fs (pathKey p)

/-- `os.Lstat` on a path string. -/
def lstatPath (fs : Fs) (p : String) : Option FNode := lookupKey fs (pathKey p)

/-- `fileops.PathExists`: `os.Stat` succeeds. -/
def PathExists (fs : Fs) (p : String) : Bool := (statPath fs p).isSome

/-- Whether a node is a symbolic link. -/
def isLinkNode : FNode → Bool
  | FNode.link _ => true
  | _ => false

/-- Whether a node is a directory. -/
def isDirNode : FNode → Bool
  | FNode.dir => true
  | _ => false

/-- `fileops.IsSymlink`: non-dereferencing stat reports a link. -/
def IsSymlink (fs : Fs) (p : String) : Bool :=
  match lstatPath fs p with
  | some n => isLinkNode n
  | none => false

/-- `fileops.IsDirectory`: dereferencing stat reports a directory. -/
def IsDirectory (fs : Fs) (p : String) : Bool :=
  match statPath fs p with
  | some n => isDirNode n
  | none => false

/-- `fileops.GetFileType`. -/
def GetFileType (fs : Fs) (p : String) : FileType :=
  if IsDirectory fs p then FileType.directory else FileType.file

/-- `os.Readlink`. -/
def readLink (fs : Fs) (p : String) : Option String :=
  match lstatPath fs p with
  | some (FNode.link t) => some t
  | _ => none

/-- The nonempty prefixes of a key, shortest first. -/
def keyPrefixes (k : Key) : List Key := k.inits.filter (fun x => x ≠ [])

/-- One level of `os.MkdirAll`: a component that stats as a directory is
kept, a component that stats as something else is `ENOTDIR`, a component
whose entry exists but does not stat (a dangling link) makes `mkdir` fail
with `EEXIST`, and a missing component is created. -/
def mkdirStep (acc : Fs × Option String) (pfx : Key) : Fs × Option String :=
  match acc with
  | (fs, some e) => (fs, some e)
  | (fs, none) =>
    match statKey fs pfx with
    | some FNode.dir => (fs, none)
    | some _ => (fs, some "not a directory")
    | none =>
      if (lookupKey fs pfx).isSome then (fs, some "file exists")
      else ((pfx, FNode.dir) :: fs, none)

/-- `os.MkdirAll`: create the missing components top-down; on error the
components already created remain (as in Go). -/
def osMkdirAll (fs : Fs) (p : String) : Fs × Option String :=
  (keyPrefixes (pathKey p)).foldl mkdirStep (fs, none)

/-- Whether the parent directory of `k` resolves to a directory. -/
def parentOk (fs : Fs) (k : Key) : Bool :=
  k.dropLast = [] || decide (statKey fs k.dropLast = some FNode.dir)

/-- `os.Symlink(target, linkPath)`: fails if an entry (even a dangling
link) already occupies `linkPath`, if the parent is missing, or if the
environment denies link creation there (permissions, quota, ...). -/
def osSymlink (denied : List Key) (fs : Fs) (target linkPath : String) :
    Fs × Option String :=
  let k := pathKey linkPath
  if k = [] then (fs, some "file exists")
  else if (lookupKey fs k).isSome then (fs, some "file exists")
  else if parentOk fs k = false then (fs, some "no such file or directory")
  else if k ∈ denied then (fs, some "permission denied")
  else ((k, FNode.link target) :: fs, none)

/-- `os.Remove`: removes a file, link, or empty directory. -/
def osRemove (fs : Fs) (p : String) : Fs × Option String :=
  let k := pathKey p
  if k = [] then (fs, some "operation not permitted")
  else
    match lookupKey fs k with
    | none => (fs, some "no such file or directory")
    | some FNode.dir =>
      if hasDescendant fs k then (fs, some "directory not empty")
      else (eraseKey fs k, none)
    | some _ => (eraseKey fs k, none)

/-- `os.Rename(src, dst)` (`rename(2)`): moves the entry (and, for a
directory, its whole subtree).  A destination that exists as a directory,
or that has entries below it, is rejected (POSIX allows an empty-directory
destination for a directory source; this model conservatively rejects it —
no execution considered here exercises that corner).  A plain-file
destination is silently replaced when the source is not a directory. -/
def osRename (fs : Fs) (src dst : String) : Fs × Option String :=
  let s := pathKey src
  let d := pathKey dst
  if s = [] ∨ d = [] then (fs, some "invalid argument")
  else
    match lookupKey fs s with
    | none => (fs, some "no such file or directory")
    | some n =>
      if s = d then (fs, none)
      else if keyStrictUnder s d = true ∨ keyStrictUnder d s = true then
        (fs, some "invalid argument")
      else if hasDescendant fs d then (fs, some "directory not empty")
      else
        match lookupKey fs d with
        | some FNode.dir => (fs, some "file exists")
        | some _ =>
          if isDirNode n then (fs, some "not a directory")
          else (renameTree (eraseKey fs d) s d, none)
        | none =>
          if parentOk fs d then (renameTree fs s d, none)
          else (fs, some "no such file or directory")

/-! ## fileops (internal/fileops) -/

/-- `fileops.MoveToRepo`: make the destination's parent directories, then
rename the source into place. -/
def MoveToRepo (fs : Fs) (originalPath repoPath : String) : Fs × Option String :=
  match osMkdirAll fs (goDir repoPath) with
  | (fs1, some e) => (fs1, some ("failed to create destination directory: " ++ e))
  | (fs1, none) =>
    match osRename fs1 originalPath repoPath with
    | (fs2, some e) => (fs2, some ("failed to move: " ++ e))
    | (fs2, none) => (fs2, none)

/-- `fileops.CreateSymlink`: make the link's parent directories, then
create the symbolic link at `originalPath` pointing at `repoPath`. -/
def CreateSymlink (denied : List Key) (fs : Fs) (originalPath repoPath : String) :
    Fs × Option String :=
  match osMkdirAll fs (goDir originalPath) with
  | (fs1, some e) => (fs1, some ("failed to create parent directory for symlink: " ++ e))
  | (fs1, none) =>
    match osSymlink denied fs1 repoPath originalPath with
    | (fs2, some e) => (fs2, some ("failed to create symlink: " ++ e))
    | (fs2, none) => (fs2, none)

/-- `fileops.RemoveSymlink`: verify the original is a symbolic link, remove
it, and rename the stored copy back into place. -/
def RemoveSymlink (fs : Fs) (originalPath repoPath : String) : Fs × Option String :=
  match lstatPath fs originalPath with
  | none => (fs, some "failed to stat original path")
  | some n =>
    if isLinkNode n = false then (fs, some "original path is not a symlink")
    else
      match osRemove fs originalPath with
      | (fs1, some e) => (fs1, some ("failed to remove symlink: " ++ e))
      | (fs1, none) =>
        match osRename fs1 repoPath originalPath with
        | (fs2, some e) => (fs2, some ("failed to restore file from repo: " ++ e))
        | (fs2, none) => (fs2, none)

/-! ## Configuration (internal/config) -/

/-- `types.Config`. -/
structure Config where
  dotmanDir : String
  homeDir : String
  indexFile : String
deriving Repr

/-- `config.IsInsideHome`: make both paths absolute, take the relative
form, and reject when it string-starts with `".."`.  `cwd` is the process
working directory used by `filepath.Abs`. -/
def IsInsideHome (cfg : Config) (cwd path : String) : Bool :=
  !(goHasPrefix (goRelStr (goAbs cwd cfg.homeDir) (goAbs cwd path)) "..")

/-- `config.ExpandPath`: `~` and `~/` shorthands, otherwise absolute
resolution, then the home-directory security check. -/
def ExpandPath (cfg : Config) (cwd path : String) : Except String String :=
  let expandedPath :=
    if path = "~" then cfg.homeDir
    else if goHasPrefix path "~/" then goJoin cfg.homeDir (path.drop 2)
    else goAbs cwd path
  if IsInsideHome cfg cwd expandedPath then Except.ok expandedPath
  else Except.error ("path must be inside home directory: " ++ expandedPath)

/-- `config.RelativeToHome`. -/
def RelativeToHome (cfg : Config) (cwd absolutePath : String) : Except String String :=
  if IsInsideHome cfg cwd absolutePath then
    Except.ok (goRelStr cfg.homeDir absolutePath)
  else Except.error ("path is outside home directory: " ++ absolutePath)

/-- `config.ShouldIgnoreRepoPath` (its `cfg` parameter is unused in the
source). -/
def ShouldIgnoreRepoPath (repoRelPath : String) : Bool :=
  let rel := cleanRel repoRelPath
  rel = ".dotman" || rel = (".dotman" ++ sepStr) || rel.toLower = "readme.md" ||
    goHasPrefix rel (".dotman" ++ sepStr)

/-! ## Command state -/

/-- The state a command acts on: the filesystem plus the persisted manifest
(`none` models a missing `index.json`). -/
structure CmdState where
  fs : Fs
  store : Option Index
deriving Repr

/-! ## internal/cli: add and remove -/

/-- `cli.runAdd` for one path.  `git.EnsureRepo`, `git.Add` and
`git.Commit` are external subprocesses modelled as succeeding no-ops, and
`index.Save` writes the in-memory index to the store component. -/
def runAdd (cfg : Config) (cwd : String) (denied : List Key) (now : Nat)
    (st : CmdState) (path : String) : CmdState × Option String :=
  match ExpandPath cfg cwd path with
  | Except.error e => (st, some ("failed to expand path: " ++ e))
  | Except.ok expandedPath =>
    if PathExists st.fs expandedPath = false then
      (st, some ("path does not exist: " ++ expandedPath))
    else if IsInsideHome cfg cwd expandedPath = false then
      (st, some ("path must be inside home directory: " ++ expandedPath))
    else
      match osMkdirAll st.fs cfg.dotmanDir with
      | (fs1, some e) => ({ st with fs := fs1 }, some ("failed to create dotman directory: " ++ e))
      | (fs1, none) =>
        let idx := indexLoad st.store
        if IsManaged idx expandedPath then
          ({ st with fs := fs1 }, some ("path is already managed: " ++ expandedPath))
        else
          match RelativeToHome cfg cwd expandedPath with
          | Except.error e => ({ st with fs := fs1 }, some ("failed to get relative path: " ++ e))
          | Except.ok relativePath =>
            let repoPath := goJoin cfg.dotmanDir relativePath
            let fileType := GetFileType fs1 expandedPath
            match MoveToRepo fs1 expandedPath repoPath with
            | (fs2, some e) => ({ st with fs := fs2 }, some ("failed to move file to repo: " ++ e))
            | (fs2, none) =>
              match CreateSymlink denied fs2 expandedPath repoPath with
              | (fs3, some e) =>
                ({ st with fs := (osRename fs3 repoPath expandedPath).1 }, some e)
              | (fs3, none) =>
                ({ fs := fs3, store := some (AddFile idx expandedPath relativePath fileType now) }, none)

/-- `cli.runRemove` for one path. -/
def runRemove (cfg : Config) (cwd : String) (st : CmdState) (path : String) :
    CmdState × Option String :=
  match ExpandPath cfg cwd path with
  | Except.error e => (st, some ("failed to expand path: " ++ e))
  | Except.ok expandedPath =>
    let idx := indexLoad st.store
    match FindFile idx expandedPath with
    | none => (st, some ("path is not managed by dotman: " ++ expandedPath))
    | some managedFile =>
      let repoPath := goJoin cfg.dotmanDir managedFile.repoPath
      match RemoveSymlink st.fs expandedPath repoPath with
      | (fs1, some e) =>
        ({ st with fs := fs1 }, some ("failed to remove symlink and restore file: " ++ e))
      | (fs1, none) =>
        ({ fs := fs1, store := some (RemoveFile idx expandedPath).1 }, none)

/-- The loop body shared by `cli.runAddMultiple` and
`cli.runRemoveMultiple`: run one path, then either count a success or
record the failure message. -/
def tallyStep (step : CmdState → String → CmdState × Option String)
    (acc : CmdState × Nat × List String) (path : String) : CmdState × Nat × List String :=
  let s := step acc.1 path
  match s.2 with
  | some msg => (s.1, acc.2.1, acc.2.2 ++ [path ++ ": " ++ msg])
  | none => (s.1, acc.2.1 + 1, acc.2.2)

/-- `cli.runAddMultiple`: process every path, tallying successes and
failures; fail overall only when there was a failure and nothing
succeeded. -/
def runAddMultiple (cfg : Config) (cwd : String) (denied : List Key) (now : Nat)
    (st : CmdState) (paths : List String) : CmdState × Nat × List String × Option String :=
  let r := paths.foldl (tallyStep (runAdd cfg cwd denied now)) (st, 0, ([] : List String))
  if r.2.2 ≠ [] ∧ r.2.1 = 0 then (r.1, r.2.1, r.2.2, some "all operations failed")
  else (r.1, r.2.1, r.2.2, none)

/-- `cli.runRemoveMultiple`. -/
def runRemoveMultiple (cfg : Config) (cwd : String) (st : CmdState)
    (paths : List String) : CmdState × Nat × List String × Option String :=
  let r := paths.foldl (tallyStep (runRemove cfg cwd)) (st, 0, ([] : List String))
  if r.2.2 ≠ [] ∧ r.2.1 = 0 then (r.1, r.2.1, r.2.2, some "all operations failed")
  else (r.1, r.2.1, r.2.2, none)

/-! ## internal/cli: deploy -/

/-- One manifest entry of `cli.runDeploy`: skip store metadata, a missing
stored file, and any original location that already exists (symlink or
not); otherwise create the symlink (a failure there is printed and
skipped). -/
def deployEntry (cfg : Config) (denied : List Key) (fs : Fs) (f : ManagedFile) : Fs :=
  let repoPath := goJoin cfg.dotmanDir f.repoPath
  if ShouldIgnoreRepoPath f.repoPath then fs
  else if PathExists fs repoPath = false then fs
  else if PathExists fs f.originalPath then fs
  else (CreateSymlink denied fs f.originalPath repoPath).1

/-- `cli.runDeploy`. -/
def runDeploy (cfg : Config) (denied : List Key) (st : CmdState) :
    CmdState × Option String :=
  if PathExists st.fs cfg.dotmanDir = false then
    (st, some ("dotman directory does not exist: " ++ cfg.dotmanDir))
  else
    let idx := indexLoad st.store
    if Count idx = 0 then (st, none)
    else ({ st with fs := (GetAllFiles idx).foldl (deployEntry cfg denied) st.fs }, none)

/-! ## internal/cli: status helpers, fix, cleanup, discovery -/

/-- `cli.getManagedDirectories`. -/
def getManagedDirectories (idx : Index) : List String :=
  ((GetAllFiles idx).filter (fun f => f.ftype = FileType.directory)).map
    (fun f => f.originalPath)

/-- `cli.isWithinManagedDirectory`: string-prefix test against each managed
directory followed by a separator (the source checks both `"/"` and
`string(filepath.Separator)`, identical on Unix). -/
def isWithinManagedDirectory (filePath : String) (managedDirs : List String) : Bool :=
  managedDirs.any
    (fun dir => goHasPrefix filePath (dir ++ "/") || goHasPrefix filePath (dir ++ sepStr))

/-- One manifest entry of `cli.runFix`. -/
def fixEntry (cfg : Config) (denied : List Key) (dryRun : Bool)
    (acc : Fs × Nat × Nat) (f : ManagedFile) : Fs × Nat × Nat :=
  let fs := acc.1
  let fixed := acc.2.1
  let problems := acc.2.2
  let repoPath := goJoin cfg.dotmanDir f.repoPath
  if PathExists fs repoPath = false then (fs, fixed, problems + 1)
  else
    let fixBranch : Fs × Nat × Nat :=
      if dryRun then (fs, fixed + 1, problems)
      else
        let fs1 := if PathExists fs f.originalPath then (osRemove fs f.originalPath).1 else fs
        match CreateSymlink denied fs1 f.originalPath repoPath with
        | (fs2, some _) => (fs2, fixed, problems + 1)
        | (fs2, none) => (fs2, fixed + 1, problems)
    if PathExists fs f.originalPath then
      if IsSymlink fs f.originalPath then
        match readLink fs f.originalPath with
        | some target =>
          if target = repoPath then (fs, fixed, problems)
          else (fs, fixed, problems + 1)
        | none => fixBranch
      else (fs, fixed, problems + 1)
    else fixBranch

/-- `cli.runFix`. -/
def runFix (cfg : Config) (denied : List Key) (dryRun : Bool) (st : CmdState) :
    CmdState × Option String :=
  if PathExists st.fs cfg.dotmanDir = false then
    (st, some ("dotman directory does not exist: " ++ cfg.dotmanDir))
  else
    let idx := indexLoad st.store
    if Count idx = 0 then (st, none)
    else
      ({ st with
          fs := ((GetAllFiles idx).foldl (fixEntry cfg denied dryRun) (st.fs, 0, 0)).1 },
        none)

/-- The removal loop body of `cli.runCleanup`: remove one redundant entry
by `original_path`, counting it when found. -/
def cleanupStep (acc : Index × Nat) (f : ManagedFile) : Index × Nat :=
  let rr := RemoveFile acc.1 f.originalPath
  (rr.1, if rr.2 then acc.2 + 1 else acc.2)

/-- `cli.runCleanup`: drop the manifest's `kind=file` entries that the
containment check covers; the filesystem is untouched. -/
def runCleanup (cfg : Config) (dryRun : Bool) (st : CmdState) :
    CmdState × Option String :=
  if PathExists st.fs cfg.dotmanDir = false then
    (st, some ("dotman directory does not exist: " ++ cfg.dotmanDir))
  else
    let idx := indexLoad st.store
    if Count idx = 0 then (st, none)
    else
      let managedDirs := getManagedDirectories idx
      if managedDirs = [] then (st, none)
      else
        let redundantFiles := (GetAllFiles idx).filter
          (fun f => f.ftype = FileType.file ∧
            isWithinManagedDirectory f.originalPath managedDirs = true)
        if redundantFiles = [] then (st, none)
        else if dryRun then (st, none)
        else
          let r := redundantFiles.foldl cleanupStep ((idx, 0) : Index × Nat)
          if r.2 = 0 then (st, none)
          else ({ st with store := some r.1 }, none)

/-- `cli.findUnmanagedFiles` (the discovery scan used by sync): walk the
store, skip anything whose path contains `".git"` or ends in
`"index.json"`, skip directories, and report the store-relative path of
every file that is neither managed directly nor covered by a managed
directory.  `filepath.Walk`'s lexical visiting order is abstracted by the
entry order of the filesystem list. -/
def findUnmanagedFiles (cfg : Config) (fs : Fs) (idx : Index) : List String :=
  let managedDirs := getManagedDirectories idx
  let repoKey := pathKey cfg.dotmanDir
  fs.filterMap
    (fun e =>
      if decide (repoKey <+: e.1) = false then none
      else
        let path := joinSegs e.1
        if goContains path ".git" || goHasSuffix path "index.json" then none
        else if isDirNode e.2 then none
        else
          let relPath := goRelStr cfg.dotmanDir path
          let originalPath := goJoin cfg.homeDir relPath
          if IsManaged idx originalPath = false ∧
              isWithinManagedDirectory originalPath managedDirs = false then
            some relPath
          else none)

/-! ## Spec-side definitions -/

/-- Modelled from the spec: a candidate path is covered when it is a strict
descendant — by whole path segments, not by naive string prefix — of a
directory entry's `original_path`. -/
def specStrictDescendant (dir filePath : String) : Bool :=
  decide (pathKey dir <+: pathKey filePath) && decide (pathKey dir ≠ pathKey filePath)

/-- Number of manifest records with the given `original_path`. -/
def countPath (idx : Index) (p : String) : Nat :=
  (idx.managedFiles.filter (fun f => f.originalPath = p)).length

/-- The acceptance criterion `IsInsideHome` actually implements, at the
segment level: the home segments must prefix the path's segments AND the
first remaining segment must not begin with the two literal characters
`..` (so e.g. a file named `..foo` directly under home is rejected even
though it lies inside home). -/
def specAccepted (home p : Key) : Bool :=
  decide (home <+: p) &&
    (match p.drop home.length with
     | [] => true
     | s :: _ => !(dotdot.isPrefixOf s))

/-- Inside-ness by whole path segments (the spec's reading: the resolved
path is home itself or a descendant of it). -/
def specInsideHome (home p : Key) : Bool := decide (home <+: p)

/-! ## Concrete example states used to instantiate the theorems -/

/-- A configuration as `config.New` builds it for home `/home/u`. -/
def exCfg : Config := ⟨"/home/u/.dotman", "/home/u", "/home/u/.dotman/index.json"⟩

/-- A filesystem holding the home directory and one dotfile. -/
def exFs : Fs :=
  [(pathKey "/home/u", FNode.dir),
   (pathKey "/home/u/.bashrc", FNode.file "alias ll" 420)]

/-- The command state for `exFs` with no manifest yet. -/
def exSt : CmdState := ⟨exFs, none⟩

/-- A manifest entry for `~/.bashrc`. -/
def exEntry : ManagedFile := ⟨"/home/u/.bashrc", ".bashrc", FileType.file, 3⟩

/-- A manifest holding `exEntry`. -/
def exIdx : Index := ⟨"1.0", [exEntry]⟩

/-- A filesystem for the fix scenario: the store and its copy of
`~/.bashrc` exist, but the original location holds a dangling symbolic
link to a path that no longer exists. -/
def fixFs : Fs :=
  [(pathKey "/home/u/.dotman", FNode.dir),
   (pathKey "/home/u/.dotman/.bashrc", FNode.file "alias ll" 420),
   (pathKey "/home/u/.bashrc", FNode.link "/home/u/.gone"),
   (pathKey "/home/u", FNode.dir)]

/-- A filesystem for the deploy scenario: the store copy exists and the
original location is occupied by a regular (non-symlink) file. -/
def deployFs : Fs :=
  [(pathKey "/home/u/.dotman", FNode.dir),
   (pathKey "/home/u/.dotman/.bashrc", FNode.file "stored" 420),
   (pathKey "/home/u/.bashrc", FNode.file "local edits" 420),
   (pathKey "/home/u", FNode.dir)]

/-- A manifest holding a directory entry for `~/.config/app` and a file
entry covered by it. -/
def coveredIdx : Index :=
  ⟨"1.0",
   [⟨"/home/u/.config/app", ".config/app", FileType.directory, 1⟩,
    ⟨"/home/u/.config/app/settings.json", ".config/app/settings.json", FileType.file, 2⟩]⟩

/-- A store filesystem for the discovery scenario: the store contains a
file covered by the managed directory of `coveredIdx`. -/
def discoverFs : Fs :=
  [(pathKey "/home/u/.dotman", FNode.dir),
   (pathKey "/home/u/.dotman/.config/app/settings.json", FNode.file "cfg" 420)]

/-- The store path the add command computes for `~/.bashrc`. -/
def wRepo : String := goJoin exCfg.dotmanDir (goRelStr exCfg.homeDir "/home/u/.bashrc")

/-- The filesystem after the add command creates the store directory. -/
def wFs1 : Fs := (osMkdirAll exFs exCfg.dotmanDir).1

/-- The filesystem after `~/.bashrc` moves into the store. -/
def wFs2 : Fs := (MoveToRepo wFs1 "/home/u/.bashrc" wRepo).1

/-- The filesystem after `CreateSymlink` prepares the link's parent
directories. -/
def wFs3 : Fs := (osMkdirAll wFs2 (goDir "/home/u/.bashrc")).1

/-- An environment denying link creation at `~/.bashrc`. -/
def wDenied : List Key := [pathKey "/home/u/.bashrc"]

/-- The filesystem after a successful `CreateSymlink`. -/
def vFs3 : Fs := (CreateSymlink [] wFs2 "/home/u/.bashrc" wRepo).1

/-! # Theorems -/

/-! ## Basic lemmas about segments -/

theorem takeWhile_append_all {α : Type} (p : α → Bool) (l r : List α)
    (h : ∀ a ∈ l, p a) : (l ++ r).takeWhile p = l ++ r.takeWhile p := by
  induction l with
  | nil => simp
  | cons a t ih =>
    have ha : p a = true := h a (by simp)
    have ht : ∀ x ∈ t, p x = true := fun x hx => h x (by simp [hx])
    simp [List.takeWhile_cons, ha, ih ht]

theorem dropWhile_append_all {α : Type} (p : α → Bool) (l r : List α)
    (h : ∀ a ∈ l, p a) : (l ++ r).dropWhile p = r.dropWhile p := by
  induction l with
  | nil => simp
  | cons a t ih =>
    have ha : p a = true := h a (by simp)
    have ht : ∀ x ∈ t, p x = true := fun x hx => h x (by simp [hx])
    simp [List.dropWhile_cons, ha, ih ht]

@[simp] theorem segsOf_nil : segsOf [] = [] := rfl

@[simp] theorem segsOf_sep (rest : List Char) : segsOf ('/' :: rest) = segsOf rest := by
  unfold segsOf
  rw [segsOfAux, if_pos rfl, if_pos rfl]

theorem segsOfAux_pending : ∀ (cs : List Char) (cur : Seg), cur ≠ [] →
    segsOfAux cs cur =
      (cur.reverse ++ cs.takeWhile (· ≠ '/')) :: segsOf (cs.dropWhile (· ≠ '/')) := by
  intro cs
  induction cs with
  | nil =>
    intro cur hcur
    unfold segsOfAux
    rw [if_neg hcur]
    simp [segsOf, segsOfAux]
  | cons c rest ih =>
    intro cur hcur
    by_cases hc : c = '/'
    · subst hc
      rw [segsOfAux, if_pos rfl, if_neg hcur]
      simp [List.takeWhile_cons, List.dropWhile_cons]
      rfl
    · rw [segsOfAux, if_neg hc, ih (c :: cur) (by simp)]
      simp [List.takeWhile_cons, hc, List.dropWhile_cons, List.append_assoc]

theorem segsOf_cons (c : Char) (rest : List Char) (h : c ≠ '/') :
    segsOf (c :: rest) =
      (c :: rest.takeWhile (· ≠ '/')) :: segsOf (rest.dropWhile (· ≠ '/')) := by
  unfold segsOf
  rw [segsOfAux, if_neg h, segsOfAux_pending rest [c] (by simp)]
  rfl

theorem segsOfAux_good : ∀ (cs : List Char) (cur : Seg), '/' ∉ cur →
    GoodSegs (segsOfAux cs cur) := by
  intro cs
  induction cs with
  | nil =>
    intro cur hcur s hs
    unfold segsOfAux at hs
    by_cases h0 : cur = []
    · rw [if_pos h0] at hs
      simp at hs
    · rw [if_neg h0] at hs
      have hsc : s = cur.reverse := by simpa using hs
      subst hsc
      exact ⟨by simpa using h0, by simpa using hcur⟩
  | cons c rest ih =>
    intro cur hcur s hs
    rw [segsOfAux] at hs
    by_cases hc : c = '/'
    · rw [if_pos hc] at hs
      by_cases h0 : cur = []
      · rw [if_pos h0] at hs
        exact ih [] (by simp) s hs
      · rw [if_neg h0] at hs
        rcases List.mem_cons.mp hs with h1 | h1
        · subst h1
          exact ⟨by simpa using h0, by simpa using hcur⟩
        · exact ih [] (by simp) s h1
    · rw [if_neg hc] at hs
      refine ih (c :: cur) ?_ s hs
      intro hm
      rcases List.mem_cons.mp hm with h1 | h1
      · exact hc h1.symm
      · exact hcur h1

theorem segsOf_good : ∀ cs : List Char, GoodSegs (segsOf cs) := by
  intro cs
  exact segsOfAux_good cs [] (by simp)

theorem cleanStep_mem {acc : Key} {a s : Seg} (h : s ∈ cleanStep acc a) :
    s ∈ acc ∨ s = a := by
  unfold cleanStep at h
  split at h
  · exact Or.inl h
  · split at h
    · exact Or.inl (List.dropLast_subset _ h)
    · rcases List.mem_append.mp h with h1 | h1
      · exact Or.inl h1
      · exact Or.inr (by simpa using h1)

theorem cleanStep_nodots {acc : Key} {a s : Seg}
    (hacc : ∀ x ∈ acc, x ≠ dotSeg ∧ x ≠ dotdot) (h : s ∈ cleanStep acc a) :
    s ≠ dotSeg ∧ s ≠ dotdot := by
  unfold cleanStep at h
  split at h
  next => exact hacc s h
  next h1 =>
    split at h
    next => exact hacc s (List.dropLast_subset _ h)
    next h2 =>
      rcases List.mem_append.mp h with h3 | h3
      · exact hacc s h3
      · have : s = a := by simpa using h3
        subst this
        exact ⟨h1, h2⟩

theorem foldl_cleanStep_mem :
    ∀ (l acc : Key) (s : Seg), s ∈ l.foldl cleanStep acc → s ∈ acc ∨ s ∈ l := by
  intro l
  induction l with
  | nil => intro acc s hs; exact Or.inl hs
  | cons a t ih =>
    intro acc s hs
    simp only [List.foldl_cons] at hs
    rcases ih _ s hs with h1 | h1
    · rcases cleanStep_mem h1 with h2 | h2
      · exact Or.inl h2
      · exact Or.inr (by simp [h2])
    · exact Or.inr (by simp [h1])

theorem cleanSegs_mem {l : Key} {s : Seg} (h : s ∈ cleanSegs l) : s ∈ l := by
  rcases foldl_cleanStep_mem l [] s h with h1 | h1
  · simp at h1
  · exact h1

theorem foldl_cleanStep_nodots :
    ∀ (l acc : Key), (∀ x ∈ acc, x ≠ dotSeg ∧ x ≠ dotdot) →
      ∀ s ∈ l.foldl cleanStep acc, s ≠ dotSeg ∧ s ≠ dotdot := by
  intro l
  induction l with
  | nil => intro acc hacc s hs; exact hacc s hs
  | cons a t ih =>
    intro acc hacc s hs
    simp only [List.foldl_cons] at hs
    exact ih _ (fun x hx => cleanStep_nodots hacc hx) s hs

theorem cleanSegs_nodots (l : Key) : ∀ s ∈ cleanSegs l, s ≠ dotSeg ∧ s ≠ dotdot :=
  fun s hs => foldl_cleanStep_nodots l [] (by simp) s hs

theorem cleanSegs_pure_of {l : Key} (hg : GoodSegs l) : PureSegs (cleanSegs l) :=
  ⟨fun s hs => hg s (cleanSegs_mem hs), cleanSegs_nodots l⟩

theorem pathKey_pure (s : String) : PureSegs (pathKey s) :=
  cleanSegs_pure_of (segsOf_good _)

theorem pathKey_good (s : String) : GoodSegs (pathKey s) := (pathKey_pure s).1

theorem foldl_cleanStep_of_nodots :
    ∀ (l acc : Key), (∀ s ∈ l, s ≠ dotSeg ∧ s ≠ dotdot) →
      l.foldl cleanStep acc = acc ++ l := by
  intro l
  induction l with
  | nil => intro acc _; simp
  | cons a t ih =>
    intro acc h
    have ha := h a (by simp)
    have hstep : cleanStep acc a = acc ++ [a] := by
      unfold cleanStep
      rw [if_neg ha.1, if_neg ha.2]
    simp only [List.foldl_cons, hstep]
    rw [ih _ (fun s hs => h s (by simp [hs]))]
    simp

theorem cleanSegs_of_pure {l : Key} (hl : PureSegs l) : cleanSegs l = l := by
  unfold cleanSegs
  rw [foldl_cleanStep_of_nodots l [] (fun s hs => hl.2 s hs)]
  simp

@[simp] theorem joinR_nil : joinR [] = [] := rfl

theorem joinR_single (s : Seg) : joinR [s] = s := rfl

theorem joinR_cons (s a : Seg) (t : List Seg) :
    joinR (s :: a :: t) = s ++ '/' :: joinR (a :: t) := rfl

theorem segsOf_goodSeg_single (s : Seg) (hg : GoodSeg s) : segsOf s = [s] := by
  obtain ⟨hne, hsl⟩ := hg
  cases s with
  | nil => exact absurd rfl hne
  | cons c cs =>
    have hc : c ≠ '/' := fun h => hsl (by simp [h])
    have hcs : ∀ x ∈ cs, x ≠ '/' := fun x hx h => hsl (by rw [← h]; exact List.mem_cons_of_mem c hx)
    rw [segsOf_cons c _ hc]
    have htake : cs.takeWhile (· ≠ '/') = cs := by
      have := takeWhile_append_all (fun x => decide (x ≠ '/')) cs []
        (fun a ha => by simpa using hcs a ha)
      simpa using this
    have hdrop : cs.dropWhile (· ≠ '/') = [] := by
      have := dropWhile_append_all (fun x => decide (x ≠ '/')) cs []
        (fun a ha => by simpa using hcs a ha)
      simpa using this
    rw [htake, hdrop]
    simp

theorem segsOf_goodSeg_append (s : Seg) (r : List Char) (hg : GoodSeg s) :
    segsOf (s ++ '/' :: r) = s :: segsOf r := by
  obtain ⟨hne, hsl⟩ := hg
  cases s with
  | nil => exact absurd rfl hne
  | cons c cs =>
    have hc : c ≠ '/' := fun h => hsl (by simp [h])
    have hcs : ∀ x ∈ cs, x ≠ '/' := fun x hx h => hsl (by rw [← h]; exact List.mem_cons_of_mem c hx)
    rw [List.cons_append, segsOf_cons c _ hc]
    have htake : (cs ++ '/' :: r).takeWhile (· ≠ '/') = cs := by
      rw [takeWhile_append_all _ cs _ (fun a ha => by simpa using hcs a ha)]
      simp [List.takeWhile_cons]
    have hdrop : (cs ++ '/' :: r).dropWhile (· ≠ '/') = '/' :: r := by
      rw [dropWhile_append_all _ cs _ (fun a ha => by simpa using hcs a ha)]
      simp [List.dropWhile_cons]
    rw [htake, hdrop, segsOf_sep]

theorem segsOf_joinR (l : List Seg) (hg : GoodSegs l) : segsOf (joinR l) = l := by
  induction l with
  | nil => simp
  | cons s t ih =>
    cases t with
    | nil => rw [joinR_single]; exact segsOf_goodSeg_single s (hg s (by simp))
    | cons a t2 =>
      rw [joinR_cons, segsOf_goodSeg_append s _ (hg s (by simp))]
      rw [ih (fun x hx => hg x (by simp [hx]))]

theorem data_joinSegs (l : List Seg) : (joinSegs l).data = '/' :: joinR l := rfl

theorem pathKey_joinSegs (l : List Seg) (hp : PureSegs l) : pathKey (joinSegs l) = l := by
  unfold pathKey
  rw [data_joinSegs, segsOf_sep, segsOf_joinR l hp.1, cleanSegs_of_pure hp]

theorem pathKey_cleanAbs (s : String) : pathKey (cleanAbs s) = pathKey s :=
  pathKey_joinSegs _ (pathKey_pure s)

theorem isCanon_cleanAbs (s : String) : IsCanon (cleanAbs s) := by
  unfold IsCanon cleanAbs
  rw [pathKey_joinSegs _ (pathKey_pure s)]

theorem isCanon_goJoin (a b : String) : IsCanon (goJoin a b) := isCanon_cleanAbs _

theorem pathKey_goJoin (a b : String) :
    pathKey (goJoin a b) = pathKey (a ++ sepStr ++ b) := pathKey_cleanAbs _

/-! ## Separator-aware prefix reasoning -/

theorem sep_prefix_core :
    ∀ (u v x y : List Char), '/' ∉ u → '/' ∉ v →
      ((u ++ '/' :: x) <+: (v ++ '/' :: y) ↔ u = v ∧ x <+: y) := by
  intro u
  induction u with
  | nil =>
    intro v x y _ hv
    cases v with
    | nil => simp
    | cons b v2 =>
      simp only [List.nil_append, List.cons_append]
      constructor
      · intro h
        rcases List.cons_prefix_cons.mp h with ⟨h1, _⟩
        exact absurd (List.mem_cons_self b v2) (by rw [← h1] at hv ⊢; exact fun hm => hv hm)
      · rintro ⟨h1, _⟩
        exact absurd h1 (by simp)
  | cons a u2 ih =>
    intro v x y hu hv
    cases v with
    | nil =>
      simp only [List.cons_append, List.nil_append]
      constructor
      · intro h
        rcases List.cons_prefix_cons.mp h with ⟨h1, _⟩
        exact absurd (List.mem_cons_self a u2) (by rw [h1] at hu ⊢; exact fun hm => hu hm)
      · rintro ⟨h1, _⟩
        exact absurd h1 (by simp)
    | cons b v2 =>
      simp only [List.cons_append]
      rw [List.cons_prefix_cons,
        ih v2 x y (fun h => hu (by simp [h])) (fun h => hv (by simp [h]))]
      constructor
      · rintro ⟨h1, h2, h3⟩
        exact ⟨by rw [h1, h2], h3⟩
      · rintro ⟨h1, h2⟩
        injection h1 with h3 h4
        exact ⟨h3, h4, h2⟩

theorem joinR_sep_prefix_iff :
    ∀ (ds fs : List Seg), GoodSegs ds → GoodSegs fs → ds ≠ [] →
      ((joinR ds ++ ['/']) <+: joinR fs ↔ ds <+: fs ∧ ds ≠ fs) := by
  intro ds
  induction ds with
  | nil => intro fs _ _ h; exact absurd rfl h
  | cons d ds2 ih =>
    intro fs hds hfs _
    have hd : GoodSeg d := hds d (by simp)
    cases ds2 with
    | nil =>
      cases fs with
      | nil =>
        constructor
        · intro h
          have := h.length_le
          simp at this
        · rintro ⟨h, _⟩
          have := h.length_le
          simp at this
      | cons f fs2 =>
        have hf : GoodSeg f := hfs f (by simp)
        cases fs2 with
        | nil =>
          rw [joinR_single, joinR_single]
          constructor
          · intro h
            exact absurd (h.subset (by simp)) hf.2
          · rintro ⟨h1, h2⟩
            rcases List.cons_prefix_cons.mp h1 with ⟨h3, _⟩
            exact absurd (by rw [h3]) h2
        | cons f2 fs3 =>
          rw [joinR_single, joinR_cons]
          have hcore := sep_prefix_core d f [] (joinR (f2 :: fs3)) hd.2 hf.2
          simp only [List.append_nil] at hcore
          rw [show d ++ ['/'] = d ++ '/' :: [] from rfl, hcore]
          constructor
          · rintro ⟨h1, _⟩
            subst h1
            exact ⟨List.cons_prefix_cons.mpr ⟨rfl, by simp⟩, by simp⟩
          · rintro ⟨h1, _⟩
            rcases List.cons_prefix_cons.mp h1 with ⟨h3, _⟩
            exact ⟨h3, by simp⟩
    | cons d2 ds3 =>
      cases fs with
      | nil =>
        constructor
        · intro h
          have := h.length_le
          simp [joinR_cons] at this
        · rintro ⟨h1, _⟩
          have := h1.length_le
          simp at this
      | cons f fs2 =>
        have hf : GoodSeg f := hfs f (by simp)
        cases fs2 with
        | nil =>
          rw [joinR_cons, joinR_single]
          constructor
          · intro h
            have hm : '/' ∈ f := h.subset (by simp)
            exact absurd hm hf.2
          · rintro ⟨h1, _⟩
            have := h1.length_le
            simp at this
        | cons f2 fs3 =>
          rw [joinR_cons, joinR_cons]
          have hassoc :
              (d ++ '/' :: joinR (d2 :: ds3)) ++ ['/'] =
                d ++ '/' :: (joinR (d2 :: ds3) ++ ['/']) := by
            simp
          rw [hassoc,
            sep_prefix_core d f (joinR (d2 :: ds3) ++ ['/']) (joinR (f2 :: fs3)) hd.2 hf.2,
            ih (f2 :: fs3) (fun x hx => hds x (by simp [hx]))
              (fun x hx => hfs x (by simp [hx])) (by simp)]
          constructor
          · rintro ⟨h1, h2, h3⟩
            refine ⟨List.cons_prefix_cons.mpr ⟨h1, h2⟩, ?_⟩
            intro hc
            injection hc with hc1 hc2
            exact h3 hc2
          · rintro ⟨h1, h2⟩
            rcases List.cons_prefix_cons.mp h1 with ⟨h3, h4⟩
            refine ⟨h3, h4, ?_⟩
            intro hc
            exact h2 (by rw [h3, hc])

theorem data_of_isCanon {s : String} (h : IsCanon s) :
    s.data = '/' :: joinR (pathKey s) := by
  conv_lhs => rw [← h]
  rfl

theorem goHasPrefix_dirSep_iff (dir filePath : String)
    (hdir : IsCanon dir) (hfile : IsCanon filePath) (hne : pathKey dir ≠ []) :
    goHasPrefix filePath (dir ++ "/") = true ↔
      (pathKey dir <+: pathKey filePath ∧ pathKey dir ≠ pathKey filePath) := by
  unfold goHasPrefix
  rw [List.isPrefixOf_iff_prefix, String.data_append, data_of_isCanon hdir,
    data_of_isCanon hfile]
  rw [show (("/" : String).data) = ['/'] from rfl]
  rw [show ('/' :: joinR (pathKey dir)) ++ ['/'] = '/' :: (joinR (pathKey dir) ++ ['/']) by simp]
  rw [List.cons_prefix_cons]
  rw [joinR_sep_prefix_iff (pathKey dir) (pathKey filePath) (pathKey_good dir)
    (pathKey_good filePath) hne]
  simp

theorem isWithin_iff_specStrict (filePath : String) (dirs : List String)
    (hfile : IsCanon filePath)
    (hdirs : ∀ d ∈ dirs, IsCanon d ∧ pathKey d ≠ []) :
    isWithinManagedDirectory filePath dirs = true ↔
      ∃ d ∈ dirs, specStrictDescendant d filePath = true := by
  unfold isWithinManagedDirectory
  rw [List.any_eq_true]
  constructor
  · rintro ⟨d, hd, hpre⟩
    refine ⟨d, hd, ?_⟩
    have hsep : (sepStr : String) = "/" := rfl
    rw [hsep, Bool.or_self] at hpre
    have h1 := (goHasPrefix_dirSep_iff d filePath (hdirs d hd).1 hfile (hdirs d hd).2).mp hpre
    unfold specStrictDescendant
    simp [h1.1, h1.2]
  · rintro ⟨d, hd, hspec⟩
    refine ⟨d, hd, ?_⟩
    unfold specStrictDescendant at hspec
    simp only [Bool.and_eq_true, decide_eq_true_eq] at hspec
    have hsep : (sepStr : String) = "/" := rfl
    rw [hsep, Bool.or_self]
    exact (goHasPrefix_dirSep_iff d filePath (hdirs d hd).1 hfile (hdirs d hd).2).mpr hspec

/-! ## The relative-path computation -/

theorem relSegs_nil_left (t : Key) : relSegs [] t = t := by
  cases t <;> rfl

theorem relSegs_cons_nil (x : Seg) (b : Key) :
    relSegs (x :: b) [] = List.replicate (x :: b).length dotdot := rfl

theorem relSegs_cons_cons (x y : Seg) (b t : Key) :
    relSegs (x :: b) (y :: t) =
      if x = y then relSegs b t
      else List.replicate (b.length + 1) dotdot ++ y :: t := rfl

theorem relSegs_of_prefix : ∀ (h q : Key), h <+: q → relSegs h q = q.drop h.length := by
  intro h
  induction h with
  | nil => intro q _; simp [relSegs_nil_left]
  | cons x h2 ih =>
    intro q hpre
    cases q with
    | nil =>
      have := hpre.length_le
      simp at this
    | cons y q2 =>
      rcases List.cons_prefix_cons.mp hpre with ⟨h1, h2p⟩
      rw [relSegs_cons_cons, if_pos h1, ih q2 h2p]
      simp

theorem relSegs_of_not_prefix : ∀ (h q : Key), ¬(h <+: q) → ∃ t, relSegs h q = dotdot :: t := by
  intro h
  induction h with
  | nil => intro q hq; exact absurd (List.nil_prefix) hq
  | cons x h2 ih =>
    intro q hq
    cases q with
    | nil =>
      refine ⟨List.replicate h2.length dotdot, ?_⟩
      rw [relSegs_cons_nil]
      simp [List.replicate_succ]
    | cons y q2 =>
      by_cases hxy : x = y
      · have hq2 : ¬(h2 <+: q2) := fun hp => hq (List.cons_prefix_cons.mpr ⟨hxy, hp⟩)
        rw [relSegs_cons_cons, if_pos hxy]
        exact ih q2 hq2
      · refine ⟨List.replicate h2.length dotdot ++ y :: q2, ?_⟩
        rw [relSegs_cons_cons, if_neg hxy]
        simp [List.replicate_succ]

theorem dotdot_prefix_joinR_cons (s : Seg) (l : List Seg) (hg : GoodSeg s) :
    dotdot <+: joinR (s :: l) ↔ dotdot <+: s := by
  cases l with
  | nil => rw [joinR_single]
  | cons a t =>
    rw [joinR_cons]
    constructor
    · intro hp
      cases s with
      | nil => exact absurd rfl hg.1
      | cons c1 s2 =>
        cases s2 with
        | nil =>
          rcases List.cons_prefix_cons.mp hp with ⟨h1, h2⟩
          rcases List.cons_prefix_cons.mp h2 with ⟨h3, _⟩
          exact absurd h3.symm (by simp)
        | cons c2 s3 =>
          rcases List.cons_prefix_cons.mp hp with ⟨h1, h2⟩
          rcases List.cons_prefix_cons.mp h2 with ⟨h3, _⟩
          subst h1
          subst h3
          exact List.cons_prefix_cons.mpr ⟨rfl, List.cons_prefix_cons.mpr ⟨rfl, by simp⟩⟩
    · intro hp
      exact hp.trans (by simp)

theorem isInsideHome_eq_specAccepted (cfg : Config) (cwd path : String) :
    IsInsideHome cfg cwd path =
      specAccepted (pathKey (goAbs cwd cfg.homeDir)) (pathKey (goAbs cwd path)) := by
  unfold IsInsideHome specAccepted goRelStr
  set H := pathKey (goAbs cwd cfg.homeDir) with hH
  set Q := pathKey (goAbs cwd path) with hQ
  by_cases hpre : H <+: Q
  · rw [ relSegs_of_prefix H Q hpre]
    have hQg : GoodSegs Q := pathKey_good _
    cases hdrop : Q.drop H.length with
    | nil =>
      simp only [hdrop]
      rw [show goHasPrefix "." ".." = false from rfl]
      simp [hpre]
    | cons s l =>
      simp only [hdrop]
      have hs : GoodSeg s := by
        have : s ∈ Q := by
          have : s ∈ Q.drop H.length := by rw [hdrop]; simp
          exact List.mem_of_mem_drop this
        exact hQg s this
      have hgoal :
          goHasPrefix (joinRelStr (s :: l)) ".." = dotdot.isPrefixOf (joinR (s :: l)) := rfl
      rw [hgoal]
      by_cases hdd : dotdot <+: s
      · have h1 : dotdot.isPrefixOf (joinR (s :: l)) = true :=
          List.isPrefixOf_iff_prefix.mpr ((dotdot_prefix_joinR_cons s l hs).mpr hdd)
        have h2 : dotdot.isPrefixOf s = true := List.isPrefixOf_iff_prefix.mpr hdd
        simp [h1, h2, hpre]
      · have h1 : dotdot.isPrefixOf (joinR (s :: l)) = false := by
          rw [← Bool.not_eq_true, List.isPrefixOf_iff_prefix]
          exact fun hc => hdd ((dotdot_prefix_joinR_cons s l hs).mp hc)
        have h2 : dotdot.isPrefixOf s = false := by
          rw [← Bool.not_eq_true, List.isPrefixOf_iff_prefix]
          exact hdd
        simp [h1, h2, hpre]
  · rcases relSegs_of_not_prefix H Q hpre with ⟨t, ht⟩
    rw [ht]
    have h1 : goHasPrefix (joinRelStr (dotdot :: t)) ".." = true := by
      show dotdot.isPrefixOf (joinR (dotdot :: t)) = true
      exact List.isPrefixOf_iff_prefix.mpr
        ((dotdot_prefix_joinR_cons dotdot t (by unfold dotdot GoodSeg; simp)).mpr List.prefix_rfl)
    simp [h1, hpre]

/-! ## Filesystem lookup toolkit -/

theorem lookupKey_nil (q : Key) : lookupKey [] q = none := rfl

theorem lookupKey_cons (k : Key) (n : FNode) (rest : Fs) (q : Key) :
    lookupKey ((k, n) :: rest) q = if k = q then some n else lookupKey rest q := rfl

theorem lookupKey_eraseKey (fs : Fs) (q k : Key) :
    lookupKey (eraseKey fs q) k = if k = q then none else lookupKey fs k := by
  induction fs with
  | nil => simp [eraseKey, lookupKey_nil]
  | cons e rest ih =>
    obtain ⟨k0, n0⟩ := e
    by_cases h0 : k0 = q
    · have hstep : eraseKey ((k0, n0) :: rest) q = eraseKey rest q := by
        unfold eraseKey
        rw [List.filter_cons_of_neg (by simpa using h0)]
      rw [hstep, ih, lookupKey_cons]
      by_cases hkq : k = q
      · simp [hkq]
      · rw [if_neg hkq, if_neg hkq, if_neg (fun hc : k0 = k => hkq (hc ▸ h0))]
    · have hstep : eraseKey ((k0, n0) :: rest) q = (k0, n0) :: eraseKey rest q := by
        unfold eraseKey
        rw [List.filter_cons_of_pos (by simpa using h0)]
      rw [hstep, lookupKey_cons, lookupKey_cons, ih]
      by_cases hk : k0 = k
      · subst hk
        rw [if_pos rfl, if_neg (fun hc : k0 = q => h0 hc), if_pos rfl]
      · rw [if_neg hk, if_neg hk]

/-- `fs'` preserves every entry of `fs` exactly. -/
def FsExtends (fs fs' : Fs) : Prop :=
  ∀ k n, lookupKey fs k = some n → lookupKey fs' k = some n

theorem fsExtends_refl (fs : Fs) : FsExtends fs fs := fun _ _ h => h

theorem fsExtends_trans {a b c : Fs} (h1 : FsExtends a b) (h2 : FsExtends b c) :
    FsExtends a c := fun k n h => h2 k n (h1 k n h)

theorem fsExtends_cons_fresh {fs : Fs} {k : Key} {n : FNode}
    (h : lookupKey fs k = none) : FsExtends fs ((k, n) :: fs) := by
  intro q m hq
  rw [lookupKey_cons]
  by_cases hkq : k = q
  · subst hkq; rw [h] at hq; exact absurd hq (by simp)
  · rw [if_neg hkq]; exact hq

theorem statKn_mono {fs fs' : Fs} (h : FsExtends fs fs') :
    ∀ (fuel : Nat) (k : Key) (n : FNode), statKn fs fuel k = some n → statKn fs' fuel k = some n := by
  intro fuel
  induction fuel with
  | zero => intro k n hk; simp [statKn] at hk
  | succ m ih =>
    intro k n hk
    rw [statKn] at hk ⊢
    cases hl : lookupKey fs k with
    | none => rw [hl] at hk; exact absurd hk (by simp)
    | some nd =>
      rw [hl] at hk
      rw [h k nd hl]
      cases nd with
      | link t => exact ih _ n hk
      | file c p => exact hk
      | dir => exact hk

theorem statKey_mono {fs fs' : Fs} (h : FsExtends fs fs') {k : Key} {n : FNode}
    (hs : statKey fs k = some n) : statKey fs' k = some n :=
  statKn_mono h maxLinkDepth k n hs

theorem lookup_isSome_of_statKn {fs : Fs} {fuel : Nat} {k : Key} {n : FNode}
    (h : statKn fs fuel k = some n) : (lookupKey fs k).isSome := by
  cases fuel with
  | zero => simp [statKn] at h
  | succ m =>
    rw [statKn] at h
    cases hl : lookupKey fs k with
    | none => rw [hl] at h; exact absurd h (by simp)
    | some nd => simp

theorem lookup_isSome_of_pathExists {fs : Fs} {p : String}
    (h : PathExists fs p = true) : (lookupKey fs (pathKey p)).isSome := by
  unfold PathExists statPath statKey at h
  cases hs : statKn fs maxLinkDepth (pathKey p) with
  | none => rw [hs] at h; simp at h
  | some n => exact lookup_isSome_of_statKn hs

/-! ## MkdirAll characterization -/

theorem mkdirStep_cases (st : Fs × Option String) (pfx : Key) :
    (mkdirStep st pfx).1 = st.1 ∨
      ((mkdirStep st pfx).1 = (pfx, FNode.dir) :: st.1 ∧ lookupKey st.1 pfx = none ∧ st.2 = none) := by
  obtain ⟨fs, err⟩ := st
  cases err with
  | some e => exact Or.inl rfl
  | none =>
    unfold mkdirStep
    cases hs : statKey fs pfx with
    | none =>
      simp only
      rw [hs]
      cases hl : lookupKey fs pfx with
      | none => simp
      | some nd => simp
    | some nd =>
      simp only
      rw [hs]
      cases nd with
      | dir => exact Or.inl rfl
      | file c p => exact Or.inl rfl
      | link t => exact Or.inl rfl

theorem mkdirFold_lookup (l : List Key) :
    ∀ (st : Fs × Option String) (k : Key),
      lookupKey (l.foldl mkdirStep st).1 k = lookupKey st.1 k ∨
        (lookupKey st.1 k = none ∧
          lookupKey (l.foldl mkdirStep st).1 k = some FNode.dir ∧ k ∈ l) := by
  induction l with
  | nil => intro st k; exact Or.inl rfl
  | cons a t ih =>
    intro st k
    simp only [List.foldl_cons]
    rcases ih (mkdirStep st a) k with h1 | ⟨h1, h2, h3⟩
    · rcases mkdirStep_cases st a with h2 | ⟨h2, h3, _⟩
      · rw [h2] at h1; exact Or.inl h1
      · rw [h2, lookupKey_cons] at h1
        by_cases hak : a = k
        · subst hak
          rw [if_pos rfl] at h1
          exact Or.inr ⟨h3, h1, by simp⟩
        · rw [if_neg hak] at h1
          exact Or.inl h1
    · rcases mkdirStep_cases st a with h4 | ⟨h4, h5, _⟩
      · rw [h4] at h1
        exact Or.inr ⟨h1, h2, by simp [h3]⟩
      · rw [h4, lookupKey_cons] at h1
        by_cases hak : a = k
        · subst hak
          rw [if_pos rfl] at h1
          exact absurd h1 (by simp)
        · rw [if_neg hak] at h1
          exact Or.inr ⟨h1, h2, by simp [h3]⟩

theorem mkdirFold_extends (l : List Key) :
    ∀ (st : Fs × Option String), FsExtends st.1 (l.foldl mkdirStep st).1 := by
  intro st k n h
  rcases mkdirFold_lookup l st k with h1 | ⟨h1, _, _⟩
  · rw [h1, h]
  · rw [h] at h1; exact absurd h1 (by simp)

theorem mem_keyPrefixes {k target : Key} (h : k ∈ keyPrefixes target) :
    k ≠ [] ∧ k <+: target := by
  unfold keyPrefixes at h
  rw [List.mem_filter] at h
  refine ⟨by simpa using h.2, ?_⟩
  exact List.mem_inits _ _ |>.mp h.1

theorem osMkdirAll_lookup (fs : Fs) (p : String) (k : Key) :
    lookupKey (osMkdirAll fs p).1 k = lookupKey fs k ∨
      (lookupKey fs k = none ∧ lookupKey (osMkdirAll fs p).1 k = some FNode.dir ∧
        k ≠ [] ∧ k <+: pathKey p) := by
  unfold osMkdirAll
  rcases mkdirFold_lookup (keyPrefixes (pathKey p)) (fs, none) k with h1 | ⟨h1, h2, h3⟩
  · exact Or.inl h1
  · rcases mem_keyPrefixes h3 with ⟨h4, h5⟩
    exact Or.inr ⟨h1, h2, h4, h5⟩

theorem osMkdirAll_extends (fs : Fs) (p : String) : FsExtends fs (osMkdirAll fs p).1 := by
  unfold osMkdirAll
  exact mkdirFold_extends (keyPrefixes (pathKey p)) (fs, none)

theorem mkdirFold_err (l : List Key) :
    ∀ (fs : Fs) (e : String), l.foldl mkdirStep (fs, some e) = (fs, some e) := by
  induction l with
  | nil => intro fs e; rfl
  | cons a t ih =>
    intro fs e
    simp only [List.foldl_cons]
    rw [show mkdirStep (fs, some e) a = (fs, some e) from rfl]
    exact ih fs e

theorem mkdirStep_none_eq (fs : Fs) (pfx : Key) :
    mkdirStep (fs, none) pfx =
      match statKey fs pfx with
      | some FNode.dir => (fs, none)
      | some _ => (fs, some "not a directory")
      | none =>
        if (lookupKey fs pfx).isSome then (fs, some "file exists")
        else ((pfx, FNode.dir) :: fs, none) := rfl

theorem statKey_cons_self (fs : Fs) (k : Key) (n : FNode) (h : isLinkNode n = false) :
    statKey ((k, n) :: fs) k = some n := by
  unfold statKey maxLinkDepth
  rw [show (40 : Nat) = 39 + 1 from rfl, statKn, lookupKey_cons, if_pos rfl]
  cases n with
  | dir => rfl
  | file c p => rfl
  | link t => simp [isLinkNode] at h

theorem mkdirStep_ok {fs fs1 : Fs} {a : Key} (h : mkdirStep (fs, none) a = (fs1, none)) :
    statKey fs1 a = some FNode.dir := by
  rw [mkdirStep_none_eq] at h
  cases hs : statKey fs a with
  | some nd =>
    rw [hs] at h
    cases nd with
    | dir =>
      injection h with h1 _
      rw [← h1]
      exact hs
    | file c p => simp at h
    | link t => simp at h
  | none =>
    rw [hs] at h
    cases hl : lookupKey fs a with
    | some nd =>
      rw [hl] at h
      simp at h
    | none =>
      rw [hl] at h
      simp only [Option.isSome_none, Bool.false_eq_true, if_false] at h
      injection h with h1 _
      rw [← h1]
      exact statKey_cons_self fs a FNode.dir rfl

theorem mkdirFold_post (l : List Key) :
    ∀ (fs : Fs), (l.foldl mkdirStep (fs, none)).2 = none →
      ∀ k ∈ l, statKey (l.foldl mkdirStep (fs, none)).1 k = some FNode.dir := by
  induction l with
  | nil => intro fs _ k hk; simp at hk
  | cons a t ih =>
    intro fs hok k hk
    simp only [List.foldl_cons] at hok ⊢
    cases hstep : mkdirStep (fs, none) a with
    | mk fs1 err1 =>
      rw [hstep] at hok
      cases err1 with
      | some e =>
        rw [mkdirFold_err] at hok
        simp at hok
      | none =>
        have hstat : statKey fs1 a = some FNode.dir := mkdirStep_ok hstep
        rcases List.mem_cons.mp hk with h1 | h1
        · subst h1
          exact statKey_mono (mkdirFold_extends t (fs1, none)) hstat
        · exact ih fs1 hok k h1

theorem osMkdirAll_post {fs : Fs} {p : String} (h : (osMkdirAll fs p).2 = none) :
    ∀ k ∈ keyPrefixes (pathKey p), statKey (osMkdirAll fs p).1 k = some FNode.dir := by
  unfold osMkdirAll at h ⊢
  exact mkdirFold_post _ fs h

theorem pureSegs_dropLast {l : Key} (h : PureSegs l) : PureSegs l.dropLast :=
  ⟨fun s hs => h.1 s (List.dropLast_subset _ hs),
   fun s hs => h.2 s (List.dropLast_subset _ hs)⟩

theorem data_goDir (s : String) : goDir s = joinSegs ((segsOf s.data).dropLast) := rfl

theorem pathKey_goDir_of_isCanon {p : String} (h : IsCanon p) :
    pathKey (goDir p) = (pathKey p).dropLast := by
  have hsegs : segsOf p.data = pathKey p := by
    rw [data_of_isCanon h, segsOf_sep, segsOf_joinR _ (pathKey_good p)]
  rw [data_goDir, hsegs, pathKey_joinSegs _ (pureSegs_dropLast (pathKey_pure p))]

/-! ## Rename characterization -/

theorem lookupKey_renameTree (fs : Fs) (s d : Key)
    (hnsd : ¬ s <+: d) (hnds : ¬ d <+: s)
    (hdempty : ∀ k, d <+: k → lookupKey fs k = none) :
    ∀ k, lookupKey (renameTree fs s d) k =
      if s <+: k then none
      else if d <+: k then lookupKey fs (s ++ k.drop d.length)
      else lookupKey fs k := by
  induction fs with
  | nil =>
    intro k
    simp only [renameTree, List.map_nil, lookupKey_nil]
    split
    · rfl
    · split <;> rfl
  | cons e rest ih =>
    intro k
    obtain ⟨k0, n0⟩ := e
    have hdrest : ∀ q, d <+: q → lookupKey rest q = none := by
      intro q hq
      have hh := hdempty q hq
      rw [lookupKey_cons] at hh
      by_cases h0 : k0 = q
      · rw [if_pos h0] at hh; exact absurd hh (by simp)
      · rw [if_neg h0] at hh; exact hh
    have ihr := ih hdrest
    have hd0 : ¬ d <+: k0 := by
      intro hc
      have hh := hdempty k0 hc
      rw [lookupKey_cons, if_pos rfl] at hh
      exact absurd hh (by simp)
    simp only [renameTree, List.map_cons] at ihr ⊢
    by_cases hs0 : s <+: k0
    · rw [if_pos hs0, lookupKey_cons]
      by_cases hk : shiftKey s d k0 = k
      · rw [if_pos hk]
        have hdk : d <+: k := by
          rw [← hk]
          exact ⟨k0.drop s.length, rfl⟩
        have hsk : ¬ s <+: k := fun hc =>
          (List.prefix_or_prefix_of_prefix hc hdk).elim hnsd hnds
        have hback : k0 = s ++ k.drop d.length := by
          rw [← hk]
          show k0 = s ++ (shiftKey s d k0).drop d.length
          unfold shiftKey
          rw [List.drop_left]
          exact (List.prefix_iff_eq_append.mp hs0).symm
        rw [if_neg hsk, if_pos hdk, lookupKey_cons, if_pos hback]
      · rw [if_neg hk, ihr k]
        by_cases hsk : s <+: k
        · rw [if_pos hsk, if_pos hsk]
        · rw [if_neg hsk, if_neg hsk]
          by_cases hdk : d <+: k
          · rw [if_pos hdk, if_pos hdk, lookupKey_cons]
            have hne : ¬ k0 = s ++ k.drop d.length := by
              intro hc
              apply hk
              show d ++ k0.drop s.length = k
              rw [hc, List.drop_left]
              exact List.prefix_iff_eq_append.mp hdk
            rw [if_neg hne]
          · rw [if_neg hdk, if_neg hdk, lookupKey_cons]
            have hne : ¬ k0 = k := fun hc => hsk (hc ▸ hs0)
            rw [if_neg hne]
    · rw [if_neg hs0, lookupKey_cons, ihr k]
      by_cases hk0 : k0 = k
      · subst hk0
        rw [if_pos rfl, if_neg hs0, if_neg hd0, lookupKey_cons, if_pos rfl]
      · rw [if_neg hk0]
        by_cases hsk : s <+: k
        · rw [if_pos hsk, if_pos hsk]
        · rw [if_neg hsk, if_neg hsk]
          by_cases hdk : d <+: k
          · rw [if_pos hdk, if_pos hdk, lookupKey_cons]
            have hne : ¬ k0 = s ++ k.drop d.length := by
              intro hc
              exact hs0 (by rw [hc]; exact ⟨k.drop d.length, rfl⟩)
            rw [if_neg hne]
          · rw [if_neg hdk, if_neg hdk, lookupKey_cons, if_neg hk0]

theorem mem_of_lookupKey {fs : Fs} {k : Key} {n : FNode}
    (h : lookupKey fs k = some n) : (k, n) ∈ fs := by
  induction fs with
  | nil => simp [lookupKey_nil] at h
  | cons e rest ih =>
    obtain ⟨k0, n0⟩ := e
    rw [lookupKey_cons] at h
    by_cases h0 : k0 = k
    · rw [if_pos h0] at h
      injection h with h1
      subst h0
      subst h1
      simp
    · rw [if_neg h0] at h
      exact List.mem_cons_of_mem _ (ih h)

theorem not_hasDescendant_lookup {fs : Fs} {d : Key} (h : hasDescendant fs d = false)
    {k : Key} (hdk : d <+: k) (hne : d ≠ k) : lookupKey fs k = none := by
  cases hl : lookupKey fs k with
  | none => rfl
  | some n =>
    exfalso
    have hm : (k, n) ∈ fs := mem_of_lookupKey hl
    have htrue : hasDescendant fs d = true := by
      unfold hasDescendant
      rw [List.any_eq_true]
      refine ⟨(k, n), hm, ?_⟩
      unfold keyStrictUnder
      simp [hdk, hne]
    rw [h] at htrue
    exact absurd htrue (by simp)

theorem not_prefix_of_strictUnder_false {s d : Key} (hne : s ≠ d)
    (h : keyStrictUnder s d = false) : ¬ s <+: d := by
  intro hc
  unfold keyStrictUnder at h
  simp [hc, hne] at h

theorem osRename_ok_ne {fs fs' : Fs} {src dst : String}
    (h : osRename fs src dst = (fs', none)) (hne : pathKey src ≠ pathKey dst) :
    (lookupKey fs (pathKey src)).isSome = true ∧
      ¬ (pathKey src <+: pathKey dst) ∧ ¬ (pathKey dst <+: pathKey src) ∧
      (∀ k, lookupKey fs' k =
        if pathKey src <+: k then none
        else if pathKey dst <+: k then
          lookupKey fs (pathKey src ++ k.drop (pathKey dst).length)
        else lookupKey fs k) := by
  unfold osRename at h
  dsimp only at h
  split at h
  · simp at h
  · rename_i hnil
    cases hlk : lookupKey fs (pathKey src) with
    | none =>
      rw [hlk] at h
      simp at h
    | some n =>
      rw [hlk] at h
      dsimp only at h
      split at h
      · simp at h
      · rename_i hunder
        push_neg at hunder
        have hsd : ¬ pathKey src <+: pathKey dst :=
          not_prefix_of_strictUnder_false hne (by simpa using hunder.1)
        have hds : ¬ pathKey dst <+: pathKey src :=
          not_prefix_of_strictUnder_false (fun hc => hne hc.symm) (by simpa using hunder.2)
        split at h
        · simp at h
        · rename_i hdesc
          have hdesc' : hasDescendant fs (pathKey dst) = false := by
            simpa using hdesc
          cases hld : lookupKey fs (pathKey dst) with
          | some nd =>
            rw [hld] at h
            cases nd with
            | dir => simp at h
            | file c p =>
              dsimp only at h
              split at h
              · simp at h
              · injection h with h1 _
                subst h1
                refine ⟨by simp [hlk], hsd, hds, ?_⟩
                intro k
                have hdempty : ∀ q, pathKey dst <+: q →
                    lookupKey (eraseKey fs (pathKey dst)) q = none := by
                  intro q hq
                  rw [lookupKey_eraseKey]
                  by_cases hqd : q = pathKey dst
                  · rw [if_pos hqd]
                  · rw [if_neg hqd]
                    exact not_hasDescendant_lookup hdesc' hq (fun hc => hqd hc.symm)
                rw [lookupKey_renameTree _ _ _ hsd hds hdempty k]
                by_cases hsk : pathKey src <+: k
                · rw [if_pos hsk, if_pos hsk]
                · rw [if_neg hsk, if_neg hsk]
                  by_cases hdk : pathKey dst <+: k
                  · rw [if_pos hdk, if_pos hdk, lookupKey_eraseKey]
                    have hnd : ¬ pathKey src ++ k.drop (pathKey dst).length = pathKey dst := by
                      intro hc
                      exact hsd (by rw [← hc]; exact ⟨_, rfl⟩)
                    rw [if_neg hnd]
                  · rw [if_neg hdk, if_neg hdk, lookupKey_eraseKey]
                    have hnd : ¬ k = pathKey dst := fun hc => hdk (by rw [hc])
                    rw [if_neg hnd]
            | link t =>
              dsimp only at h
              split at h
              · simp at h
              · injection h with h1 _
                subst h1
                refine ⟨by simp [hlk], hsd, hds, ?_⟩
                intro k
                have hdempty : ∀ q, pathKey dst <+: q →
                    lookupKey (eraseKey fs (pathKey dst)) q = none := by
                  intro q hq
                  rw [lookupKey_eraseKey]
                  by_cases hqd : q = pathKey dst
                  · rw [if_pos hqd]
                  · rw [if_neg hqd]
                    exact not_hasDescendant_lookup hdesc' hq (fun hc => hqd hc.symm)
                rw [lookupKey_renameTree _ _ _ hsd hds hdempty k]
                by_cases hsk : pathKey src <+: k
                · rw [if_pos hsk, if_pos hsk]
                · rw [if_neg hsk, if_neg hsk]
                  by_cases hdk : pathKey dst <+: k
                  · rw [if_pos hdk, if_pos hdk, lookupKey_eraseKey]
                    have hnd : ¬ pathKey src ++ k.drop (pathKey dst).length = pathKey dst := by
                      intro hc
                      exact hsd (by rw [← hc]; exact ⟨_, rfl⟩)
                    rw [if_neg hnd]
                  · rw [if_neg hdk, if_neg hdk, lookupKey_eraseKey]
                    have hnd : ¬ k = pathKey dst := fun hc => hdk (by rw [hc])
                    rw [if_neg hnd]
          | none =>
            rw [hld] at h
            dsimp only at h
            split at h
            · injection h with h1 _
              subst h1
              refine ⟨by simp [hlk], hsd, hds, ?_⟩
              intro k
              have hdempty : ∀ q, pathKey dst <+: q → lookupKey fs q = none := by
                intro q hq
                by_cases hqd : q = pathKey dst
                · rw [hqd]; exact hld
                · exact not_hasDescendant_lookup hdesc' hq (fun hc => hqd hc.symm)
              exact lookupKey_renameTree _ _ _ hsd hds hdempty k
            · simp at h

/-! ## Symlink, remove, and fileops lemmas -/

theorem osSymlink_extends (denied : List Key) (fs : Fs) (target linkPath : String) :
    FsExtends fs (osSymlink denied fs target linkPath).1 := by
  unfold osSymlink
  dsimp only
  split
  · exact fsExtends_refl fs
  · split
    · exact fsExtends_refl fs
    · split
      · exact fsExtends_refl fs
      · split
        · exact fsExtends_refl fs
        · rename_i h1 h2 h3 h4
          exact fsExtends_cons_fresh (by simpa using h2)

theorem createSymlink_extends (denied : List Key) (fs : Fs) (o r : String) :
    FsExtends fs (CreateSymlink denied fs o r).1 := by
  unfold CreateSymlink
  cases hmk : osMkdirAll fs (goDir o) with
  | mk fs1 err =>
    have hext1 : FsExtends fs fs1 := by
      have := osMkdirAll_extends fs (goDir o)
      rw [hmk] at this
      exact this
    cases err with
    | some e => exact hext1
    | none =>
      dsimp only
      cases hsl : osSymlink denied fs1 r o with
      | mk fs2 err2 =>
        have hext2 : FsExtends fs1 fs2 := by
          have := osSymlink_extends denied fs1 r o
          rw [hsl] at this
          exact this
        cases err2 with
        | some e => exact fsExtends_trans hext1 hext2
        | none => exact fsExtends_trans hext1 hext2

theorem osSymlink_ok {denied : List Key} {fs fs' : Fs} {target linkPath : String}
    (h : osSymlink denied fs target linkPath = (fs', none)) :
    pathKey linkPath ≠ [] ∧ lookupKey fs (pathKey linkPath) = none ∧
      pathKey linkPath ∉ denied ∧
      fs' = (pathKey linkPath, FNode.link target) :: fs := by
  unfold osSymlink at h
  dsimp only at h
  split at h
  · simp at h
  · rename_i h1
    split at h
    · simp at h
    · rename_i h2
      split at h
      · simp at h
      · rename_i h3
        split at h
        · simp at h
        · rename_i h4
          injection h with h5 _
          exact ⟨h1, by simpa using h2, h4, h5.symm⟩

theorem osSymlink_eval {denied : List Key} {fs : Fs} {target linkPath : String}
    (h0 : pathKey linkPath ≠ []) (h1 : lookupKey fs (pathKey linkPath) = none)
    (h2 : parentOk fs (pathKey linkPath) = true) (h3 : pathKey linkPath ∉ denied) :
    osSymlink denied fs target linkPath =
      ((pathKey linkPath, FNode.link target) :: fs, none) := by
  unfold osSymlink
  dsimp only
  rw [if_neg h0, if_neg (by simp [h1]), if_neg (by simp [h2]), if_neg h3]

theorem osRemove_eval_nondir {fs : Fs} {p : String} {n : FNode} (h0 : pathKey p ≠ [])
    (h1 : lookupKey fs (pathKey p) = some n) (h2 : isDirNode n = false) :
    osRemove fs p = (eraseKey fs (pathKey p), none) := by
  unfold osRemove
  dsimp only
  rw [if_neg h0, h1]
  cases n with
  | dir => simp [isDirNode] at h2
  | file c pp => rfl
  | link t => rfl

theorem osRename_eval {fs : Fs} {src dst : String}
    (hs : pathKey src ≠ []) (hd : pathKey dst ≠ [])
    (hlk : (lookupKey fs (pathKey src)).isSome = true)
    (hne : pathKey src ≠ pathKey dst)
    (hnsd : ¬ pathKey src <+: pathKey dst) (hnds : ¬ pathKey dst <+: pathKey src)
    (hdesc : hasDescendant fs (pathKey dst) = false)
    (hld : lookupKey fs (pathKey dst) = none)
    (hpar : parentOk fs (pathKey dst) = true) :
    osRename fs src dst = (renameTree fs (pathKey src) (pathKey dst), none) := by
  obtain ⟨n, hn⟩ := Option.isSome_iff_exists.mp hlk
  unfold osRename
  dsimp only
  rw [if_neg (by simp [hs, hd]), hn]
  dsimp only
  rw [if_neg hne]
  rw [if_neg (by
    unfold keyStrictUnder
    simp only [Bool.and_eq_true, decide_eq_true_eq]
    rintro (⟨h1, _⟩ | ⟨h1, _⟩)
    · exact hnsd h1
    · exact hnds h1)]
  rw [if_neg (by simp [hdesc]), hld]
  dsimp only
  rw [if_pos hpar]

theorem moveToRepo_ok {fs fs' : Fs} {o r : String} (h : MoveToRepo fs o r = (fs', none)) :
    ∃ fs1, osMkdirAll fs (goDir r) = (fs1, none) ∧ osRename fs1 o r = (fs', none) := by
  unfold MoveToRepo at h
  cases hmk : osMkdirAll fs (goDir r) with
  | mk fs1 err =>
    rw [hmk] at h
    cases err with
    | some e => dsimp only at h; simp at h
    | none =>
      dsimp only at h
      cases hrn : osRename fs1 o r with
      | mk fs2 err2 =>
        rw [hrn] at h
        cases err2 with
        | some e => dsimp only at h; simp at h
        | none =>
          dsimp only at h
          injection h with h1 _
          exact ⟨fs1, rfl, by rw [hrn, h1]⟩

theorem createSymlink_ok {denied : List Key} {fs fs' : Fs} {o r : String}
    (h : CreateSymlink denied fs o r = (fs', none)) :
    ∃ fs1, osMkdirAll fs (goDir o) = (fs1, none) ∧ osSymlink denied fs1 r o = (fs', none) := by
  unfold CreateSymlink at h
  cases hmk : osMkdirAll fs (goDir o) with
  | mk fs1 err =>
    rw [hmk] at h
    cases err with
    | some e => dsimp only at h; simp at h
    | none =>
      dsimp only at h
      cases hsl : osSymlink denied fs1 r o with
      | mk fs2 err2 =>
        rw [hsl] at h
        cases err2 with
        | some e => dsimp only at h; simp at h
        | none =>
          dsimp only at h
          injection h with h1 _
          exact ⟨fs1, rfl, by rw [hsl, h1]⟩

/-! ## Manifest lemmas -/

theorem findFile_eq_none_of_not_managed {idx : Index} {p : String}
    (h : IsManaged idx p = false) :
    idx.managedFiles.find? (fun f => f.originalPath = p) = none := by
  unfold IsManaged FindFile at h
  cases hf : idx.managedFiles.find? (fun f => f.originalPath = p) with
  | none => rfl
  | some f => rw [hf] at h; simp at h

theorem find?_append_single {l : List ManagedFile} {p : String}
    (h : l.find? (fun f => decide (f.originalPath = p)) = none) (e : ManagedFile) :
    (l ++ [e]).find? (fun f => decide (f.originalPath = p)) =
      if e.originalPath = p then some e else none := by
  induction l with
  | nil =>
    simp only [List.nil_append, List.find?_cons]
    by_cases he : e.originalPath = p
    · simp [he]
    · simp [he]
  | cons a t ih =>
    rw [List.find?_cons] at h
    cases hpa : (decide (a.originalPath = p)) with
    | true => rw [hpa] at h; simp at h
    | false =>
      rw [hpa] at h
      simp only [List.cons_append, List.find?_cons, hpa]
      exact ih h

theorem findFile_addFile_of_not_managed {idx : Index} {p r : String} {t : FileType}
    {now : Nat} (h : IsManaged idx p = false) :
    FindFile (AddFile idx p r t now) p = some ⟨p, r, t, now⟩ := by
  unfold FindFile AddFile
  dsimp only
  rw [find?_append_single (findFile_eq_none_of_not_managed h)]
  simp

theorem removeFirst_sublist (l : List ManagedFile) (p : String) :
    List.Sublist (removeFirst l p).1 l := by
  induction l with
  | nil => simp [removeFirst]
  | cons f rest ih =>
    rw [removeFirst]
    by_cases hp : f.originalPath = p
    · rw [if_pos hp]
      exact (List.sublist_cons_self f rest)
    · rw [if_neg hp]
      exact List.Sublist.cons₂ f ih

theorem removeFirst_append_of_none {l : List ManagedFile} {p : String}
    (h : l.find? (fun f => decide (f.originalPath = p)) = none) {e : ManagedFile}
    (he : e.originalPath = p) : removeFirst (l ++ [e]) p = (l, true) := by
  induction l with
  | nil => simp [removeFirst, he]
  | cons a t ih =>
    rw [List.find?_cons] at h
    cases hpa : (decide (a.originalPath = p)) with
    | true => rw [hpa] at h; simp at h
    | false =>
      rw [hpa] at h
      have hne : ¬ a.originalPath = p := by simpa using hpa
      rw [List.cons_append, removeFirst, if_neg hne, ih h]

theorem removeFirst_append_of_found {l : List ManagedFile} {p : String}
    (h : ∃ f ∈ l, f.originalPath = p) (e : ManagedFile) :
    removeFirst (l ++ [e]) p = ((removeFirst l p).1 ++ [e], true) := by
  induction l with
  | nil => rcases h with ⟨f, hf, _⟩; simp at hf
  | cons a t ih =>
    rw [List.cons_append, removeFirst, removeFirst]
    by_cases hp : a.originalPath = p
    · rw [if_pos hp, if_pos hp]
    · rw [if_neg hp, if_neg hp]
      rcases h with ⟨f, hf, hfp⟩
      rcases List.mem_cons.mp hf with h1 | h1
      · exact absurd (h1 ▸ hfp) hp
      · have := ih ⟨f, h1, hfp⟩
        rw [this]
        simp

theorem removeFirst_found_of_mem {l : List ManagedFile} {g : ManagedFile}
    (h : g ∈ l) {p : String} (hp : g.originalPath = p) :
    (removeFirst l p).2 = true := by
  induction l with
  | nil => simp at h
  | cons a t ih =>
    rw [removeFirst]
    by_cases hap : a.originalPath = p
    · rw [if_pos hap]
    · rw [if_neg hap]
      rcases List.mem_cons.mp h with h1 | h1
      · exact absurd (h1 ▸ hp) hap
      · exact ih h1

theorem mem_removeFirst {l : List ManagedFile} {p : String}
    (hnd : (l.map (fun f => f.originalPath)).Nodup) {f : ManagedFile} :
    f ∈ (removeFirst l p).1 ↔ f ∈ l ∧ f.originalPath ≠ p := by
  induction l with
  | nil => simp [removeFirst]
  | cons a t ih =>
    rw [List.map_cons, List.nodup_cons] at hnd
    rw [removeFirst]
    by_cases hap : a.originalPath = p
    · rw [if_pos hap]
      constructor
      · intro hf
        refine ⟨List.mem_cons_of_mem a hf, ?_⟩
        intro hc
        exact hnd.1 (by rw [hap, ← hc]; exact List.mem_map_of_mem _ hf)
      · rintro ⟨hf, hne⟩
        rcases List.mem_cons.mp hf with h1 | h1
        · exact absurd (h1 ▸ hap) hne
        · exact h1
    · rw [if_neg hap]
      constructor
      · intro hf
        rcases List.mem_cons.mp hf with h1 | h1
        · exact ⟨by simp [h1], by rw [h1]; exact hap⟩
        · have := (ih hnd.2).mp h1
          exact ⟨List.mem_cons_of_mem a this.1, this.2⟩
      · rintro ⟨hf, hne⟩
        rcases List.mem_cons.mp hf with h1 | h1
        · exact h1 ▸ List.mem_cons_self _ _
        · exact List.mem_cons_of_mem a ((ih hnd.2).mpr ⟨h1, hne⟩)

/-! ## Claim C10 -/

theorem exists_of_isManaged {idx : Index} {p : String} (h : IsManaged idx p = true) :
    ∃ f ∈ idx.managedFiles, f.originalPath = p := by
  unfold IsManaged FindFile at h
  cases hf : idx.managedFiles.find? (fun f => f.originalPath = p) with
  | none => rw [hf] at h; simp at h
  | some f =>
    refine ⟨f, List.mem_of_find?_eq_some hf, ?_⟩
    have := List.find?_some hf
    simpa using this

theorem countPath_addFile_self (idx : Index) (p r : String) (t : FileType) (now : Nat) :
    countPath (AddFile idx p r t now) p = countPath idx p + 1 := by
  unfold countPath AddFile
  dsimp only
  rw [List.filter_append]
  simp

theorem one_le_countPath_of_isManaged {idx : Index} {p : String}
    (h : IsManaged idx p = true) : 1 ≤ countPath idx p := by
  obtain ⟨f, hf, hfp⟩ := exists_of_isManaged h
  unfold countPath
  have : f ∈ idx.managedFiles.filter (fun g => decide (g.originalPath = p)) := by
    rw [List.mem_filter]
    exact ⟨hf, by simpa using hfp⟩
  have hlen := List.length_pos.mpr (List.ne_nil_of_mem this)
  omega

/-- Claim C10: `index.AddFile` appends unconditionally and does not itself
enforce uniqueness of `original_path`: on an index already containing the
path, it yields a duplicate (at least two records with that path), a single
`index.RemoveFile` removes only the first of them (the appended record
survives, at least one record remains), and the uniqueness invariant is
maintained only by the callers' `IsManaged` guard — `cli.runAdd` fails and
leaves the stored manifest unchanged whenever the expanded path is already
managed. -/
theorem C10_addFile_appends_unconditionally (idx : Index) (p r : String)
    (t : FileType) (now : Nat) :
    (AddFile idx p r t now).managedFiles = idx.managedFiles ++ [⟨p, r, t, now⟩] ∧
    (IsManaged idx p = true →
      2 ≤ countPath (AddFile idx p r t now) p ∧
      (RemoveFile (AddFile idx p r t now) p).1.managedFiles =
        (RemoveFile idx p).1.managedFiles ++ [⟨p, r, t, now⟩] ∧
      1 ≤ countPath (RemoveFile (AddFile idx p r t now) p).1 p) ∧
    (∀ (cfg : Config) (cwd : String) (denied : List Key) (now2 : Nat) (st : CmdState)
        (path expandedPath : String),
      ExpandPath cfg cwd path = Except.ok expandedPath →
      IsManaged (indexLoad st.store) expandedPath = true →
      (runAdd cfg cwd denied now2 st path).2.isSome = true ∧
      (runAdd cfg cwd denied now2 st path).1.store = st.store) := by
  refine ⟨rfl, ?_, ?_⟩
  · intro hman
    have hcount := countPath_addFile_self idx p r t now
    have hone := one_le_countPath_of_isManaged hman
    refine ⟨by omega, ?_, ?_⟩
    · show (removeFirst (AddFile idx p r t now).managedFiles p).1 =
        (removeFirst idx.managedFiles p).1 ++ [⟨p, r, t, now⟩]
      have hex := exists_of_isManaged hman
      have := removeFirst_append_of_found hex (⟨p, r, t, now⟩ : ManagedFile)
      show (removeFirst (idx.managedFiles ++ [⟨p, r, t, now⟩]) p).1 = _
      rw [this]
    · have hex := exists_of_isManaged hman
      have hrw := removeFirst_append_of_found hex (⟨p, r, t, now⟩ : ManagedFile)
      unfold countPath RemoveFile
      dsimp only
      show 1 ≤ (((removeFirst (idx.managedFiles ++ [⟨p, r, t, now⟩]) p).1).filter
        (fun f => decide (f.originalPath = p))).length
      rw [hrw]
      rw [List.filter_append]
      simp
  · intro cfg cwd denied now2 st path expandedPath hexp hman
    unfold runAdd
    rw [hexp]
    dsimp only
    split
    · exact ⟨rfl, rfl⟩
    · split
      · exact ⟨rfl, rfl⟩
      · cases hmk : osMkdirAll st.fs cfg.dotmanDir with
        | mk fs1 err =>
          cases err with
          | some e => exact ⟨rfl, rfl⟩
          | none =>
            exact ⟨rfl, rfl⟩

/-! ## Claim C8 -/

theorem tallyStep_sum (step : CmdState → String → CmdState × Option String)
    (acc : CmdState × Nat × List String) (p : String) :
    (tallyStep step acc p).2.1 + (tallyStep step acc p).2.2.length =
      acc.2.1 + acc.2.2.length + 1 := by
  unfold tallyStep
  dsimp only
  cases (step acc.1 p).2 with
  | none => simp; omega
  | some msg => simp [List.length_append]; omega

theorem tallyFold_sum (step : CmdState → String → CmdState × Option String) :
    ∀ (paths : List String) (acc : CmdState × Nat × List String),
      (paths.foldl (tallyStep step) acc).2.1 +
          (paths.foldl (tallyStep step) acc).2.2.length =
        acc.2.1 + acc.2.2.length + paths.length := by
  intro paths
  induction paths with
  | nil => intro acc; simp
  | cons p t ih =>
    intro acc
    simp only [List.foldl_cons]
    rw [ih, tallyStep_sum]
    simp only [List.length_cons]
    omega

theorem tally_err_iff (r : CmdState × Nat × List String) (total : Nat)
    (hsum : r.2.1 + r.2.2.length = total) :
    ((if r.2.2 ≠ [] ∧ r.2.1 = 0 then (r.1, r.2.1, r.2.2, some "all operations failed")
      else (r.1, r.2.1, r.2.2, (none : Option String))) : CmdState × Nat × List String × Option String).2.2.2.isSome = true ↔
      0 < total ∧ r.2.1 = 0 := by
  by_cases hc : r.2.2 ≠ [] ∧ r.2.1 = 0
  · rw [if_pos hc]
    have hlen : 0 < r.2.2.length := List.length_pos.mpr hc.1
    constructor
    · intro _
      exact ⟨by omega, hc.2⟩
    · intro _
      rfl
  · rw [if_neg hc]
    constructor
    · intro hcon
      simp at hcon
    · rintro ⟨hpos, hzero⟩
      exfalso
      apply hc
      refine ⟨?_, hzero⟩
      intro hnil
      rw [hnil] at hsum
      simp at hsum
      omega

/-- Claim C8: a multi-path add (and likewise remove) invocation processes
every given path even when some fail — the success and failure tallies
always sum to the number of paths given — and returns an overall error
exactly when at least one path was given and zero paths succeeded; with at
least one success it reports the tally but returns success. -/
theorem C8_multi_path_aggregation (cfg : Config) (cwd : String) (denied : List Key)
    (now : Nat) (st : CmdState) (paths : List String) :
    ((runAddMultiple cfg cwd denied now st paths).2.1 +
        (runAddMultiple cfg cwd denied now st paths).2.2.1.length = paths.length ∧
      ((runAddMultiple cfg cwd denied now st paths).2.2.2.isSome = true ↔
        0 < paths.length ∧ (runAddMultiple cfg cwd denied now st paths).2.1 = 0)) ∧
    ((runRemoveMultiple cfg cwd st paths).2.1 +
        (runRemoveMultiple cfg cwd st paths).2.2.1.length = paths.length ∧
      ((runRemoveMultiple cfg cwd st paths).2.2.2.isSome = true ↔
        0 < paths.length ∧ (runRemoveMultiple cfg cwd st paths).2.1 = 0)) := by
  constructor
  · unfold runAddMultiple
    dsimp only
    set r := paths.foldl (tallyStep (runAdd cfg cwd denied now)) (st, 0, ([] : List String)) with hr
    have hsum : r.2.1 + r.2.2.length = paths.length := by
      have := tallyFold_sum (runAdd cfg cwd denied now) paths (st, 0, [])
      simpa using this
    constructor
    · by_cases hc : r.2.2 ≠ [] ∧ r.2.1 = 0
      · rw [if_pos hc]; exact hsum
      · rw [if_neg hc]; exact hsum
    · have hiff := tally_err_iff r paths.length hsum
      by_cases hc : r.2.2 ≠ [] ∧ r.2.1 = 0
      · rw [if_pos hc] at hiff ⊢; exact hiff
      · rw [if_neg hc] at hiff ⊢; exact hiff
  · unfold runRemoveMultiple
    dsimp only
    set r := paths.foldl (tallyStep (runRemove cfg cwd)) (st, 0, ([] : List String)) with hr
    have hsum : r.2.1 + r.2.2.length = paths.length := by
      have := tallyFold_sum (runRemove cfg cwd) paths (st, 0, [])
      simpa using this
    constructor
    · by_cases hc : r.2.2 ≠ [] ∧ r.2.1 = 0
      · rw [if_pos hc]; exact hsum
      · rw [if_neg hc]; exact hsum
    · have hiff := tally_err_iff r paths.length hsum
      by_cases hc : r.2.2 ≠ [] ∧ r.2.1 = 0
      · rw [if_pos hc] at hiff ⊢; exact hiff
      · rw [if_neg hc] at hiff ⊢; exact hiff

/-! ## Claim C2 -/

theorem isWithin_of_specStrict {file d : String} {dirs : List String}
    (hd : d ∈ dirs) (hcd : IsCanon d) (hnd : pathKey d ≠ []) (hcf : IsCanon file)
    (hspec : specStrictDescendant d file = true) :
    isWithinManagedDirectory file dirs = true := by
  unfold isWithinManagedDirectory
  rw [List.any_eq_true]
  refine ⟨d, hd, ?_⟩
  have hsep : (sepStr : String) = "/" := rfl
  rw [hsep, Bool.or_self]
  unfold specStrictDescendant at hspec
  simp only [Bool.and_eq_true, decide_eq_true_eq] at hspec
  exact (goHasPrefix_dirSep_iff d file hcd hcf hnd).mpr hspec

/-- Claim C2: the hierarchy containment check `isWithinManagedDirectory`
returns true for a candidate file path if and only if the path is a strict
descendant, by whole path segments, of some `kind=directory` entry's
`original_path`: a path equal to a directory entry's path is not covered,
and a path that merely shares a string prefix without a separator boundary
is not covered.  (The paths are assumed in cleaned absolute form, as the
validator stores them, and a managed directory is never the root.) -/
theorem C2_containment_iff_strict_descendant (filePath : String) (idx : Index)
    (hfile : IsCanon filePath)
    (hdirs : ∀ d ∈ getManagedDirectories idx, IsCanon d ∧ pathKey d ≠ []) :
    isWithinManagedDirectory filePath (getManagedDirectories idx) = true ↔
      ∃ d ∈ getManagedDirectories idx, specStrictDescendant d filePath = true :=
  isWithin_iff_specStrict filePath (getManagedDirectories idx) hfile hdirs

theorem C2_witness :
    ((isWithinManagedDirectory "/home/u/.config/app/settings.json"
        (getManagedDirectories coveredIdx) = true ↔
      ∃ d ∈ getManagedDirectories coveredIdx,
        specStrictDescendant d "/home/u/.config/app/settings.json" = true) ∧
    (isWithinManagedDirectory "/home/u/.configX"
        (getManagedDirectories coveredIdx) = true ↔
      ∃ d ∈ getManagedDirectories coveredIdx,
        specStrictDescendant d "/home/u/.configX" = true)) ∧
    isWithinManagedDirectory "/home/u/.config/app/settings.json"
      (getManagedDirectories coveredIdx) = true ∧
    isWithinManagedDirectory "/home/u/.configX"
      (getManagedDirectories coveredIdx) = false ∧
    isWithinManagedDirectory "/home/u/.config/app"
      (getManagedDirectories coveredIdx) = false :=
  ⟨⟨C2_containment_iff_strict_descendant "/home/u/.config/app/settings.json" coveredIdx
      (by decide) (by decide),
    C2_containment_iff_strict_descendant "/home/u/.configX" coveredIdx
      (by decide) (by decide)⟩,
   by decide, by decide, by decide⟩

/-! ## Claim C9 -/

/-- Claim C9: during discovery, every file found when walking the store
whose corresponding original path is a strict descendant of some
`kind=directory` entry's `original_path` is excluded from the reported
unmanaged list (and hence is never auto-added to the manifest, which only
ever adds members of that list). -/
theorem C9_discovery_excludes_covered (cfg : Config) (fs : Fs) (idx : Index)
    (rel d : String) (hd : d ∈ getManagedDirectories idx)
    (hcd : IsCanon d) (hnd : pathKey d ≠ [])
    (hdesc : specStrictDescendant d (goJoin cfg.homeDir rel) = true) :
    rel ∉ findUnmanagedFiles cfg fs idx := by
  intro hmem
  unfold findUnmanagedFiles at hmem
  rw [List.mem_filterMap] at hmem
  obtain ⟨e, _, he⟩ := hmem
  dsimp only at he
  by_cases hpre : decide (pathKey cfg.dotmanDir <+: e.1) = false
  · rw [if_pos hpre] at he
    exact absurd he (by simp)
  · rw [if_neg hpre] at he
    by_cases hcont :
        (goContains (joinSegs e.1) ".git" || goHasSuffix (joinSegs e.1) "index.json") = true
    · rw [if_pos hcont] at he
      exact absurd he (by simp)
    · rw [if_neg hcont] at he
      by_cases hdir : isDirNode e.2 = true
      · rw [if_pos hdir] at he
        exact absurd he (by simp)
      · rw [if_neg hdir] at he
        by_cases hguard :
            IsManaged idx
                (goJoin cfg.homeDir (goRelStr cfg.dotmanDir (joinSegs e.1))) = false ∧
              isWithinManagedDirectory
                (goJoin cfg.homeDir (goRelStr cfg.dotmanDir (joinSegs e.1)))
                (getManagedDirectories idx) = false
        · rw [if_pos hguard] at he
          injection he with hrel
          have hwithin : isWithinManagedDirectory (goJoin cfg.homeDir rel)
              (getManagedDirectories idx) = true :=
            isWithin_of_specStrict hd hcd hnd (isCanon_goJoin _ _) hdesc
          rw [← hrel] at hwithin
          rw [hguard.2] at hwithin
          exact absurd hwithin (by simp)
        · rw [if_neg hguard] at he
          exact absurd he (by simp)

theorem C9_witness :
    "/home/u/.config/app" ∈ getManagedDirectories coveredIdx ∧
    specStrictDescendant "/home/u/.config/app"
      (goJoin exCfg.homeDir ".config/app/settings.json") = true ∧
    ".config/app/settings.json" ∉ findUnmanagedFiles exCfg discoverFs coveredIdx :=
  ⟨by decide, by decide,
   C9_discovery_excludes_covered exCfg discoverFs coveredIdx
     ".config/app/settings.json" "/home/u/.config/app"
     (by decide) (by decide) (by decide) (by decide)⟩

/-! ## Claim C5 -/

theorem deployEntry_extends (cfg : Config) (denied : List Key) (fs : Fs)
    (f : ManagedFile) : FsExtends fs (deployEntry cfg denied fs f) := by
  unfold deployEntry
  dsimp only
  split
  · exact fsExtends_refl fs
  · split
    · exact fsExtends_refl fs
    · split
      · exact fsExtends_refl fs
      · exact createSymlink_extends denied fs f.originalPath _

theorem deployFold_extends (cfg : Config) (denied : List Key) :
    ∀ (l : List ManagedFile) (fs : Fs),
      FsExtends fs (l.foldl (deployEntry cfg denied) fs) := by
  intro l
  induction l with
  | nil => intro fs; exact fsExtends_refl fs
  | cons f t ih =>
    intro fs
    simp only [List.foldl_cons]
    exact fsExtends_trans (deployEntry_extends cfg denied fs f) (ih _)

/-- Claim C5: deploy never overwrites or removes an existing filesystem
entry — every entry present before deploy (in particular every existing
non-symlink file, which deploy warns about and skips) is still present,
unchanged, afterwards; deploy also never modifies the manifest. -/
theorem C5_deploy_never_overwrites (cfg : Config) (denied : List Key)
    (st : CmdState) (k : Key) (n : FNode) (h : lookupKey st.fs k = some n) :
    lookupKey (runDeploy cfg denied st).1.fs k = some n ∧
    (runDeploy cfg denied st).1.store = st.store := by
  unfold runDeploy
  dsimp only
  split
  · exact ⟨h, rfl⟩
  · split
    · exact ⟨h, rfl⟩
    · exact ⟨deployFold_extends cfg denied _ st.fs k n h, rfl⟩

theorem C5_witness :
    lookupKey
        (runDeploy exCfg [] ⟨deployFs, some exIdx⟩).1.fs
        (pathKey "/home/u/.bashrc") = some (FNode.file "local edits" 420) ∧
    (runDeploy exCfg [] ⟨deployFs, some exIdx⟩).1.store = some exIdx :=
  C5_deploy_never_overwrites exCfg [] ⟨deployFs, some exIdx⟩
    (pathKey "/home/u/.bashrc") (FNode.file "local edits" 420) (by decide)

/-! ## Claim C6 -/

/-- Claim C6 is contradicted by the code: for a manifest entry whose store
copy exists but whose original location holds a dangling symbolic link,
non-preview fix leaves the stale link in place.  `PathExists` follows the
link and reports false, so the `os.Remove` guard is skipped and
`os.Symlink` then fails with "file exists"; afterwards the original
location still holds the dangling link instead of a link to the stored
file. -/
theorem C6_fix_leaves_dangling_link :
    PathExists fixFs (goJoin exCfg.dotmanDir ".bashrc") = true ∧
    IsSymlink fixFs "/home/u/.bashrc" = true ∧
    PathExists fixFs "/home/u/.bashrc" = false ∧
    lookupKey (runFix exCfg [] false ⟨fixFs, some exIdx⟩).1.fs
      (pathKey "/home/u/.bashrc") = some (FNode.link "/home/u/.gone") ∧
    readLink (runFix exCfg [] false ⟨fixFs, some exIdx⟩).1.fs "/home/u/.bashrc" ≠
      some (goJoin exCfg.dotmanDir ".bashrc") := by
  refine ⟨by decide, by decide, by decide, by decide, by decide⟩

/-! ## Claim C1 -/

/-- Claim C1 as stated is false: `/home/u/..cfg` resolves inside the home
directory `/home/u` — home's segments are a proper prefix of its segments —
yet validation rejects it, because its form relative to home is the single
segment `..cfg`, which begins with the two characters `..` without being a
parent-directory segment.  `runAdd` propagates the rejection. -/
theorem C1_counterexample :
    (pathKey exCfg.homeDir).isPrefixOf (pathKey (goAbs "/" "/home/u/..cfg")) = true ∧
    IsInsideHome exCfg "/" "/home/u/..cfg" = false ∧
    ExpandPath exCfg "/" "/home/u/..cfg" =
      Except.error "path must be inside home directory: /home/u/..cfg" ∧
    runAdd exCfg "/" [] 0 exSt "/home/u/..cfg" =
      (exSt, some ("failed to expand path: " ++
        "path must be inside home directory: /home/u/..cfg")) := by
  refine ⟨by decide, by decide, by rfl, by rfl⟩

/-- Claim C1 (amended): the validator's criterion is literal — a path is
accepted exactly when the home segments prefix the resolved path's
segments AND the first remaining segment does not begin with the two
characters `..` (`specAccepted`).  Hence every resolved path outside home
is rejected, and on any rejected path `ExpandPath` fails and `runAdd`
returns the expansion error with the state — filesystem and stored
manifest — unchanged. -/
theorem C1_amended_literal_dotdot_criterion (cfg : Config) (cwd path : String) :
    IsInsideHome cfg cwd path =
      specAccepted (pathKey (goAbs cwd cfg.homeDir)) (pathKey (goAbs cwd path)) ∧
    (∀ (denied : List Key) (now : Nat) (st : CmdState) (e : String),
      ExpandPath cfg cwd path = Except.error e →
      runAdd cfg cwd denied now st path = (st, some ("failed to expand path: " ++ e))) := by
  refine ⟨isInsideHome_eq_specAccepted cfg cwd path, ?_⟩
  intro denied now st e herr
  unfold runAdd
  rw [herr]

theorem C1_amended_witness :
    IsInsideHome exCfg "/" "/etc/hosts" =
      specAccepted (pathKey (goAbs "/" exCfg.homeDir)) (pathKey (goAbs "/" "/etc/hosts")) ∧
    runAdd exCfg "/" [] 0 exSt "/etc/hosts" =
      (exSt, some ("failed to expand path: " ++
        "path must be inside home directory: /etc/hosts")) :=
  ⟨(C1_amended_literal_dotdot_criterion exCfg "/" "/etc/hosts").1,
   (C1_amended_literal_dotdot_criterion exCfg "/" "/etc/hosts").2 [] 0 exSt _ (by rfl)⟩

/-! ## Claim C7 -/

theorem removeFirst_eq_filter_of_nodup :
    ∀ {l : List ManagedFile} {p : String},
      (l.map (fun f => f.originalPath)).Nodup →
      (removeFirst l p).1 = l.filter (fun g => !decide (g.originalPath = p)) := by
  intro l
  induction l with
  | nil => intro p _; rfl
  | cons f t ih =>
    intro p hnd
    rw [List.map_cons, List.nodup_cons] at hnd
    rw [removeFirst]
    by_cases hf : f.originalPath = p
    · rw [if_pos hf]
      show t = (f :: t).filter (fun g => !decide (g.originalPath = p))
      rw [List.filter_cons_of_neg (by simp [hf])]
      symm
      apply List.filter_eq_self.mpr
      intro g hg
      rw [Bool.not_eq_true', decide_eq_false_iff_not]
      intro hc
      exact hnd.1 (by rw [hf, ← hc]; exact List.mem_map_of_mem _ hg)
    · rw [if_neg hf]
      show f :: (removeFirst t p).1 = (f :: t).filter (fun g => !decide (g.originalPath = p))
      rw [List.filter_cons_of_pos (by simp [hf]), ih hnd.2]

theorem filter_filter_mf (p q : ManagedFile → Bool) (l : List ManagedFile) :
    (l.filter q).filter p = l.filter (fun a => q a && p a) := by
  induction l with
  | nil => rfl
  | cons a t ih =>
    cases hq : q a <;> cases hp : p a <;>
      simp [List.filter_cons, hq, hp, ih]

theorem cleanupStep_fst (idx : Index) (c : Nat) (f : ManagedFile) :
    cleanupStep (idx, c) f =
      ({ idx with managedFiles := (removeFirst idx.managedFiles f.originalPath).1 },
        if (removeFirst idx.managedFiles f.originalPath).2 then c + 1 else c) := rfl

theorem cleanupFold_count_le :
    ∀ (ps : List ManagedFile) (acc : Index × Nat),
      acc.2 ≤ (ps.foldl cleanupStep acc).2 := by
  intro ps
  induction ps with
  | nil => intro acc; exact Nat.le_refl _
  | cons f t ih =>
    intro acc
    rw [List.foldl_cons]
    refine Nat.le_trans ?_ (ih (cleanupStep acc f))
    show acc.2 ≤ (cleanupStep acc f).2
    unfold cleanupStep
    dsimp only
    split
    · exact Nat.le_succ _
    · exact Nat.le_refl _

theorem cleanupFold_eq_filter :
    ∀ (ps : List ManagedFile) (idx0 : Index) (c : Nat),
      (idx0.managedFiles.map (fun f => f.originalPath)).Nodup →
      ((ps.foldl cleanupStep (idx0, c)).1).managedFiles =
        idx0.managedFiles.filter
          (fun g => !(ps.any (fun f => decide (f.originalPath = g.originalPath)))) := by
  intro ps
  induction ps with
  | nil =>
    intro idx0 c _
    simp
  | cons f t ih =>
    intro idx0 c hnd
    rw [List.foldl_cons, cleanupStep_fst, removeFirst_eq_filter_of_nodup hnd]
    have hnd2 : (((idx0.managedFiles.filter
        (fun g => !decide (g.originalPath = f.originalPath))).map
          (fun f => f.originalPath)).Nodup) :=
      List.Nodup.sublist (List.Sublist.map _ (List.filter_sublist _)) hnd
    rw [ih _ _ hnd2]
    dsimp only
    rw [filter_filter_mf]
    apply List.filter_congr
    intro a _
    have hco : decide (a.originalPath = f.originalPath) =
        decide (f.originalPath = a.originalPath) := by
      simp [eq_comm]
    rw [List.any_cons, Bool.not_or, hco]

theorem mem_getManagedDirectories {idx : Index} {d : ManagedFile}
    (hd : d ∈ idx.managedFiles) (hdir : d.ftype = FileType.directory) :
    d.originalPath ∈ getManagedDirectories idx := by
  unfold getManagedDirectories GetAllFiles
  exact List.mem_map_of_mem _ (List.mem_filter.mpr ⟨hd, by simp [hdir]⟩)

/-- Claim C7: after a non-preview cleanup succeeds — given a manifest whose
`original_path`s are distinct, canonical, and non-root — the filesystem
component of the state is untouched (only the stored manifest shrinks, to a
sublist of the original records), and no `kind=file` entry remains whose
`original_path` is a strict segment-wise descendant of any `kind=directory`
entry's `original_path`. -/
theorem C7_cleanup_removes_covered_entries (cfg : Config) (st : CmdState)
    (hnd : ((indexLoad st.store).managedFiles.map (fun f => f.originalPath)).Nodup)
    (hcanon : ∀ f ∈ (indexLoad st.store).managedFiles,
      IsCanon f.originalPath ∧ pathKey f.originalPath ≠ [])
    (hok : (runCleanup cfg false st).2 = none) :
    (runCleanup cfg false st).1.fs = st.fs ∧
    List.Sublist (indexLoad (runCleanup cfg false st).1.store).managedFiles
      (indexLoad st.store).managedFiles ∧
    ∀ f ∈ (indexLoad (runCleanup cfg false st).1.store).managedFiles,
      f.ftype = FileType.file →
      ∀ d ∈ (indexLoad (runCleanup cfg false st).1.store).managedFiles,
        d.ftype = FileType.directory →
        specStrictDescendant d.originalPath f.originalPath = false := by
  unfold runCleanup at hok ⊢
  dsimp only at hok ⊢
  split at hok
  · exact absurd hok (by simp)
  · rename_i h1
    rw [if_neg h1]
    split at hok
    · rename_i h2
      rw [if_pos h2]
      have hnil : (indexLoad st.store).managedFiles = [] :=
        List.length_eq_zero.mp h2
      refine ⟨rfl, List.Sublist.refl _, ?_⟩
      intro f hf
      have hf2 : f ∈ (indexLoad st.store).managedFiles := hf
      rw [hnil] at hf2
      simp at hf2
    · rename_i h2
      rw [if_neg h2]
      split at hok
      · rename_i h3
        rw [if_pos h3]
        refine ⟨rfl, List.Sublist.refl _, ?_⟩
        intro f hf hft d hd hdt
        have hd2 : d ∈ (indexLoad st.store).managedFiles := hd
        exact absurd h3 (List.ne_nil_of_mem (mem_getManagedDirectories hd2 hdt))
      · rename_i h3
        rw [if_neg h3]
        split at hok
        · rename_i h4
          rw [if_pos h4]
          refine ⟨rfl, List.Sublist.refl _, ?_⟩
          intro f hf hft d hd hdt
          have hf2 : f ∈ (indexLoad st.store).managedFiles := hf
          have hd2 : d ∈ (indexLoad st.store).managedFiles := hd
          cases hspec : specStrictDescendant d.originalPath f.originalPath with
          | false => rfl
          | true =>
            exfalso
            have hwithin := isWithin_of_specStrict (mem_getManagedDirectories hd2 hdt)
              (hcanon d hd2).1 (hcanon d hd2).2 (hcanon f hf2).1 hspec
            have hmem : f ∈ (GetAllFiles (indexLoad st.store)).filter
                (fun g => decide (g.ftype = FileType.file ∧
                  isWithinManagedDirectory g.originalPath
                    (getManagedDirectories (indexLoad st.store)) = true)) :=
              List.mem_filter.mpr ⟨hf2, by simp [hft, hwithin]⟩
            exact absurd h4 (List.ne_nil_of_mem hmem)
        · rename_i h4
          rw [if_neg h4]
          split at hok
          · rename_i h5
            exact absurd h5 (by simp)
          · rename_i h5
            rw [if_neg h5]
            split at hok
            · rename_i h6
              exfalso
              rcases List.exists_cons_of_ne_nil h4 with ⟨f0, rest, hred⟩
              have hf0X := hred.symm ▸ List.mem_cons_self f0 rest
              have hf0idx : f0 ∈ (indexLoad st.store).managedFiles :=
                (List.mem_filter.mp hf0X).1
              have hfound : (removeFirst (indexLoad st.store).managedFiles
                  f0.originalPath).2 = true :=
                removeFirst_found_of_mem hf0idx rfl
              rw [hred, List.foldl_cons] at h6
              have hle := cleanupFold_count_le rest
                (cleanupStep ((indexLoad st.store), 0) f0)
              rw [h6] at hle
              have hstep : (cleanupStep ((indexLoad st.store), 0) f0).2 = 1 := by
                unfold cleanupStep RemoveFile
                dsimp only
                rw [hfound]
                simp
              omega
            · rename_i h6
              rw [if_neg h6]
              have heq := cleanupFold_eq_filter
                ((GetAllFiles (indexLoad st.store)).filter
                  (fun g => decide (g.ftype = FileType.file ∧
                    isWithinManagedDirectory g.originalPath
                      (getManagedDirectories (indexLoad st.store)) = true)))
                (indexLoad st.store) 0 hnd
              refine ⟨rfl, ?_, ?_⟩
              · have hsub : List.Sublist
                    ((((GetAllFiles (indexLoad st.store)).filter
                      (fun g => decide (g.ftype = FileType.file ∧
                        isWithinManagedDirectory g.originalPath
                          (getManagedDirectories (indexLoad st.store)) = true))).foldl
                            cleanupStep ((indexLoad st.store), 0)).1).managedFiles
                    (indexLoad st.store).managedFiles := by
                  rw [heq]
                  exact List.filter_sublist _
                exact hsub
              · intro f hf hft d hd hdt
                have hf1 : f ∈ ((((GetAllFiles (indexLoad st.store)).filter
                    (fun g => decide (g.ftype = FileType.file ∧
                      isWithinManagedDirectory g.originalPath
                        (getManagedDirectories (indexLoad st.store)) = true))).foldl
                          cleanupStep ((indexLoad st.store), 0)).1).managedFiles := hf
                have hd1 : d ∈ ((((GetAllFiles (indexLoad st.store)).filter
                    (fun g => decide (g.ftype = FileType.file ∧
                      isWithinManagedDirectory g.originalPath
                        (getManagedDirectories (indexLoad st.store)) = true))).foldl
                          cleanupStep ((indexLoad st.store), 0)).1).managedFiles := hd
                rw [heq] at hf1 hd1
                have hf2 := List.mem_filter.mp hf1
                have hd2 := List.mem_filter.mp hd1
                cases hspec : specStrictDescendant d.originalPath f.originalPath with
                | false => rfl
                | true =>
                  exfalso
                  have hwithin := isWithin_of_specStrict
                    (mem_getManagedDirectories hd2.1 hdt)
                    (hcanon d hd2.1).1 (hcanon d hd2.1).2 (hcanon f hf2.1).1 hspec
                  have hfred : f ∈ (GetAllFiles (indexLoad st.store)).filter
                      (fun g => decide (g.ftype = FileType.file ∧
                        isWithinManagedDirectory g.originalPath
                          (getManagedDirectories (indexLoad st.store)) = true)) :=
                    List.mem_filter.mpr ⟨hf2.1, by simp [hft, hwithin]⟩
                  have hnotany := hf2.2
                  simp only [Bool.not_eq_true', List.any_eq_false,
                    decide_eq_false_iff_not] at hnotany
                  exact hnotany f hfred (by simp)

theorem C7_witness :
    (runCleanup exCfg false ⟨discoverFs, some coveredIdx⟩).1.fs = discoverFs ∧
    ∀ f ∈ (indexLoad (runCleanup exCfg false
        ⟨discoverFs, some coveredIdx⟩).1.store).managedFiles,
      f.ftype = FileType.file →
      ∀ d ∈ (indexLoad (runCleanup exCfg false
          ⟨discoverFs, some coveredIdx⟩).1.store).managedFiles,
        d.ftype = FileType.directory →
        specStrictDescendant d.originalPath f.originalPath = false :=
  ⟨(C7_cleanup_removes_covered_entries exCfg ⟨discoverFs, some coveredIdx⟩
      (by decide) (by decide) (by rfl)).1,
   (C7_cleanup_removes_covered_entries exCfg ⟨discoverFs, some coveredIdx⟩
      (by decide) (by decide) (by rfl)).2.2⟩

theorem C10_witness :
    IsManaged exIdx "/home/u/.bashrc" = true ∧
    2 ≤ countPath (AddFile exIdx "/home/u/.bashrc" ".bashrc" FileType.file 7)
      "/home/u/.bashrc" ∧
    1 ≤ countPath (RemoveFile (AddFile exIdx "/home/u/.bashrc" ".bashrc"
      FileType.file 7) "/home/u/.bashrc").1 "/home/u/.bashrc" ∧
    (runAdd exCfg "/home/u" [] 7 ⟨exFs, some exIdx⟩ "~/.bashrc").2.isSome = true ∧
    (runAdd exCfg "/home/u" [] 7 ⟨exFs, some exIdx⟩ "~/.bashrc").1.store = some exIdx :=
  ⟨by decide,
   ((C10_addFile_appends_unconditionally exIdx "/home/u/.bashrc" ".bashrc"
      FileType.file 7).2.1 (by decide)).1,
   ((C10_addFile_appends_unconditionally exIdx "/home/u/.bashrc" ".bashrc"
      FileType.file 7).2.1 (by decide)).2.2,
   ((C10_addFile_appends_unconditionally exIdx "/home/u/.bashrc" ".bashrc"
      FileType.file 7).2.2 exCfg "/home/u" [] 7 ⟨exFs, some exIdx⟩ "~/.bashrc"
      "/home/u/.bashrc" (by rfl) (by decide)).1,
   ((C10_addFile_appends_unconditionally exIdx "/home/u/.bashrc" ".bashrc"
      FileType.file 7).2.2 exCfg "/home/u" [] 7 ⟨exFs, some exIdx⟩ "~/.bashrc"
      "/home/u/.bashrc" (by rfl) (by decide)).2⟩

/-! ## Rollback machinery shared by the add error path and by remove -/

theorem eraseKey_eq_self_of_lookup_none {fs : Fs} {k : Key}
    (h : lookupKey fs k = none) : eraseKey fs k = fs := by
  induction fs with
  | nil => rfl
  | cons e rest ih =>
    obtain ⟨k1, n1⟩ := e
    rw [lookupKey_cons] at h
    by_cases hk : k1 = k
    · rw [if_pos hk] at h
      simp at h
    · rw [if_neg hk] at h
      unfold eraseKey
      rw [List.filter_cons_of_pos (by simp [hk])]
      have hr := ih h
      unfold eraseKey at hr
      rw [hr]

theorem prefix_dropLast {α : Type} (l : List α) : l.dropLast <+: l := by
  rw [List.dropLast_eq_take]
  exact List.take_prefix _ _

theorem mem_mkdirFold (l : List Key) :
    ∀ (st : Fs × Option String) (e : Key × FNode),
      e ∈ (l.foldl mkdirStep st).1 → e ∈ st.1 ∨ (e.2 = FNode.dir ∧ e.1 ∈ l) := by
  induction l with
  | nil => intro st e he; exact Or.inl he
  | cons a t ih =>
    intro st e he
    rw [List.foldl_cons] at he
    rcases ih (mkdirStep st a) e he with h1 | ⟨h1, h2⟩
    · rcases mkdirStep_cases st a with h2 | ⟨h2, _, _⟩
      · rw [h2] at h1
        exact Or.inl h1
      · rw [h2] at h1
        rcases List.mem_cons.mp h1 with h3 | h3
        · exact Or.inr ⟨by rw [h3], by rw [h3]; exact List.mem_cons_self _ _⟩
        · exact Or.inl h3
    · exact Or.inr ⟨h1, List.mem_cons_of_mem a h2⟩

theorem mem_osMkdirAll {fs : Fs} {p : String} {e : Key × FNode}
    (he : e ∈ (osMkdirAll fs p).1) :
    e ∈ fs ∨ (e.2 = FNode.dir ∧ e.1 ≠ [] ∧ e.1 <+: pathKey p) := by
  unfold osMkdirAll at he
  rcases mem_mkdirFold _ _ _ he with h1 | ⟨h1, h2⟩
  · exact Or.inl h1
  · rcases mem_keyPrefixes h2 with ⟨h3, h4⟩
    exact Or.inr ⟨h1, h3, h4⟩

theorem osRename_ok_src_vacated {fs fs' : Fs} {src dst : String}
    (h : osRename fs src dst = (fs', none)) (hne : pathKey src ≠ pathKey dst) :
    ∀ e ∈ fs', ¬ pathKey src <+: e.1 := by
  unfold osRename at h
  dsimp only at h
  split at h
  · simp at h
  · cases hlk : lookupKey fs (pathKey src) with
    | none => rw [hlk] at h; simp at h
    | some n =>
      rw [hlk] at h
      dsimp only at h
      split at h
      · simp at h
      · rename_i hunder
        push_neg at hunder
        have hsd : ¬ pathKey src <+: pathKey dst :=
          not_prefix_of_strictUnder_false hne (by simpa using hunder.1)
        have hds : ¬ pathKey dst <+: pathKey src :=
          not_prefix_of_strictUnder_false (fun hc => hne hc.symm) (by simpa using hunder.2)
        split at h
        · simp at h
        · cases hld : lookupKey fs (pathKey dst) with
          | some nd =>
            rw [hld] at h
            cases nd with
            | dir => simp at h
            | file c p =>
              dsimp only at h
              split at h
              · simp at h
              · injection h with h1 _
                subst h1
                intro e he hpre
                rcases List.mem_map.mp he with ⟨e0, he0, hfe⟩
                by_cases hs0 : pathKey src <+: e0.1
                · rw [if_pos hs0] at hfe
                  rw [← hfe] at hpre
                  dsimp only at hpre
                  have hdp : pathKey dst <+: shiftKey (pathKey src) (pathKey dst) e0.1 :=
                    ⟨_, rfl⟩
                  rcases List.prefix_or_prefix_of_prefix hpre hdp with hc | hc
                  · exact hsd hc
                  · exact hds hc
                · rw [if_neg hs0] at hfe
                  rw [← hfe] at hpre
                  exact hs0 hpre
            | link t =>
              dsimp only at h
              split at h
              · simp at h
              · injection h with h1 _
                subst h1
                intro e he hpre
                rcases List.mem_map.mp he with ⟨e0, he0, hfe⟩
                by_cases hs0 : pathKey src <+: e0.1
                · rw [if_pos hs0] at hfe
                  rw [← hfe] at hpre
                  dsimp only at hpre
                  have hdp : pathKey dst <+: shiftKey (pathKey src) (pathKey dst) e0.1 :=
                    ⟨_, rfl⟩
                  rcases List.prefix_or_prefix_of_prefix hpre hdp with hc | hc
                  · exact hsd hc
                  · exact hds hc
                · rw [if_neg hs0] at hfe
                  rw [← hfe] at hpre
                  exact hs0 hpre
          | none =>
            rw [hld] at h
            dsimp only at h
            split at h
            · injection h with h1 _
              subst h1
              intro e he hpre
              rcases List.mem_map.mp he with ⟨e0, he0, hfe⟩
              by_cases hs0 : pathKey src <+: e0.1
              · rw [if_pos hs0] at hfe
                rw [← hfe] at hpre
                dsimp only at hpre
                have hdp : pathKey dst <+: shiftKey (pathKey src) (pathKey dst) e0.1 :=
                  ⟨_, rfl⟩
                rcases List.prefix_or_prefix_of_prefix hpre hdp with hc | hc
                · exact hsd hc
                · exact hds hc
              · rw [if_neg hs0] at hfe
                rw [← hfe] at hpre
                exact hs0 hpre
            · simp at h

theorem add_rollback_core {fs1 fsm fs2 fs3 : Fs} {op rp : String}
    (hmkm : osMkdirAll fs1 (goDir rp) = (fsm, none))
    (hrn : osRename fsm op rp = (fs2, none))
    (hmk2 : osMkdirAll fs2 (goDir op) = (fs3, none))
    (hcanp : IsCanon op) (hcanr : IsCanon rp)
    (hne : pathKey op ≠ pathKey rp)
    (hpnil : pathKey op ≠ []) (hrnil : pathKey rp ≠ []) :
    osRename fs3 rp op = (renameTree fs3 (pathKey rp) (pathKey op), none) ∧
    (∀ k, pathKey op <+: k →
      lookupKey (renameTree fs3 (pathKey rp) (pathKey op)) k = lookupKey fs1 k) ∧
    (∀ k, pathKey rp <+: k →
      lookupKey (renameTree fs3 (pathKey rp) (pathKey op)) k = none) := by
  obtain ⟨hsome, hnsd, hnds, hF2⟩ := osRename_ok_ne hrn hne
  have hPd : pathKey (goDir op) = (pathKey op).dropLast := pathKey_goDir_of_isCanon hcanp
  have hRd : pathKey (goDir rp) = (pathKey rp).dropLast := pathKey_goDir_of_isCanon hcanr
  have hPpos : 0 < (pathKey op).length := List.length_pos.mpr hpnil
  have hlk3 : ∀ k, lookupKey fs3 k = lookupKey fs2 k ∨
      (lookupKey fs2 k = none ∧ lookupKey fs3 k = some FNode.dir ∧
        k ≠ [] ∧ k <+: (pathKey op).dropLast) := by
    intro k
    have hh := osMkdirAll_lookup fs2 (goDir op) k
    rw [hmk2, hPd] at hh
    exact hh
  have hlkm : ∀ k, lookupKey fsm k = lookupKey fs1 k ∨
      (lookupKey fs1 k = none ∧ lookupKey fsm k = some FNode.dir ∧
        k ≠ [] ∧ k <+: (pathKey rp).dropLast) := by
    intro k
    have hh := osMkdirAll_lookup fs1 (goDir rp) k
    rw [hmkm, hRd] at hh
    exact hh
  have hA : ∀ q, pathKey op <+: q → lookupKey fs3 q = none := by
    intro q hq
    rcases hlk3 q with h1 | ⟨_, _, _, h4⟩
    · rw [h1, hF2 q, if_pos hq]
    · exfalso
      have l1 := hq.length_le
      have l2 := h4.length_le
      rw [List.length_dropLast] at l2
      omega
  have hB : hasDescendant fs3 (pathKey op) = false := by
    unfold hasDescendant
    rw [List.any_eq_false]
    intro ee he hsu
    simp only [keyStrictUnder, Bool.and_eq_true, decide_eq_true_eq] at hsu
    have he3 : ee ∈ (osMkdirAll fs2 (goDir op)).1 := by
      rw [hmk2]
      exact he
    rcases mem_osMkdirAll he3 with h1 | ⟨_, _, h4⟩
    · exact osRename_ok_src_vacated hrn hne ee h1 hsu.1
    · rw [hPd] at h4
      have l1 := hsu.1.length_le
      have l2 := h4.length_le
      rw [List.length_dropLast] at l2
      omega
  have hC : (lookupKey fs3 (pathKey rp)).isSome = true := by
    rcases hlk3 (pathKey rp) with h1 | ⟨_, h2, _, _⟩
    · rw [h1, hF2 (pathKey rp), if_neg hnsd, if_pos (List.prefix_refl _),
        List.drop_length, List.append_nil]
      exact hsome
    · rw [h2]
      rfl
  have hE : parentOk fs3 (pathKey op) = true := by
    unfold parentOk
    by_cases hdl : (pathKey op).dropLast = []
    · rw [hdl]
      simp
    · have hok2 : (osMkdirAll fs2 (goDir op)).2 = none := by
        rw [hmk2]
      have hmem : (pathKey op).dropLast ∈ keyPrefixes (pathKey (goDir op)) := by
        rw [hPd]
        unfold keyPrefixes
        rw [List.mem_filter]
        refine ⟨?_, by simpa using hdl⟩
        rw [List.mem_inits]
      have hstat := osMkdirAll_post hok2 _ hmem
      rw [hmk2] at hstat
      have hstat2 : statKey fs3 (pathKey op).dropLast = some FNode.dir := hstat
      simp [hstat2]
  have heval : osRename fs3 rp op =
      (renameTree fs3 (pathKey rp) (pathKey op), none) :=
    osRename_eval hrnil hpnil hC (fun hc => hne hc.symm) hnds hnsd hB
      (hA _ (List.prefix_refl _)) hE
  have hform := lookupKey_renameTree fs3 (pathKey rp) (pathKey op) hnds hnsd hA
  refine ⟨heval, ?_, ?_⟩
  · intro k hk
    have hRk : ¬ pathKey rp <+: k := by
      intro hc
      rcases List.prefix_or_prefix_of_prefix hk hc with h | h
      · exact hnsd h
      · exact hnds h
    rw [hform k, if_neg hRk, if_pos hk]
    rcases hlk3 (pathKey rp ++ k.drop (pathKey op).length) with h1 | ⟨_, _, _, h4⟩
    · have hno : ¬ pathKey op <+: pathKey rp ++ k.drop (pathKey op).length := by
        intro hc
        rcases List.prefix_or_prefix_of_prefix hc
          (⟨_, rfl⟩ : pathKey rp <+: pathKey rp ++ k.drop (pathKey op).length) with h | h
        · exact hnsd h
        · exact hnds h
      have hyes : pathKey rp <+: pathKey rp ++ k.drop (pathKey op).length := ⟨_, rfl⟩
      rw [h1, hF2 (pathKey rp ++ k.drop (pathKey op).length), if_neg hno,
        if_pos hyes, List.drop_left, List.prefix_iff_eq_append.mp hk]
      rcases hlkm k with h2 | ⟨_, _, _, h5⟩
      · exact h2
      · exfalso
        exact hnsd ((hk.trans h5).trans (prefix_dropLast _))
    · exfalso
      have hyes : pathKey rp <+: pathKey rp ++ k.drop (pathKey op).length := ⟨_, rfl⟩
      exact hnds ((hyes.trans h4).trans (prefix_dropLast _))
  · intro k hk
    rw [hform k, if_pos hk]

theorem runAdd_symlink_err_eq (cfg : Config) (cwd : String) (denied : List Key)
    (now : Nat) (st : CmdState) (path op : String) (fs1 fs2 fs3 : Fs) (e : String)
    (hexp : ExpandPath cfg cwd path = Except.ok op)
    (hpe : PathExists st.fs op = true)
    (hih : IsInsideHome cfg cwd op = true)
    (hmk : osMkdirAll st.fs cfg.dotmanDir = (fs1, none))
    (hnm : IsManaged (indexLoad st.store) op = false)
    (hmv : MoveToRepo fs1 op (goJoin cfg.dotmanDir (goRelStr cfg.homeDir op)) = (fs2, none))
    (hmk2 : osMkdirAll fs2 (goDir op) = (fs3, none))
    (hsl : osSymlink denied fs3 (goJoin cfg.dotmanDir (goRelStr cfg.homeDir op)) op =
      (fs3, some e)) :
    runAdd cfg cwd denied now st path =
      ({ st with
          fs := (osRename fs3 (goJoin cfg.dotmanDir (goRelStr cfg.homeDir op)) op).1 },
        some ("failed to create symlink: " ++ e)) := by
  have hrel : RelativeToHome cfg cwd op = Except.ok (goRelStr cfg.homeDir op) := by
    unfold RelativeToHome
    rw [if_pos (show IsInsideHome cfg cwd op = true from hih)]
  have hcs : CreateSymlink denied fs2 op (goJoin cfg.dotmanDir (goRelStr cfg.homeDir op)) =
      (fs3, some ("failed to create symlink: " ++ e)) := by
    unfold CreateSymlink
    rw [hmk2]
    dsimp only
    rw [hsl]
  unfold runAdd
  rw [hexp]
  dsimp only
  rw [if_neg (by rw [hpe]; simp), if_neg (by rw [hih]; simp), hmk]
  dsimp only
  rw [if_neg (by rw [hnm]; simp), hrel]
  dsimp only
  rw [hmv]
  dsimp only
  rw [hcs]

/-- Claim C4: when the add command's move of the original into the store
succeeds but the subsequent symlink creation fails, the command reports the
symlink error for that path, leaves the stored manifest untouched, and
rolls the move back by renaming the file from the store back to its
original location — every lookup under the original path is as it was just
before the move, and the store-side destination subtree is left empty. -/
theorem C4_symlink_failure_rolls_back_move (cfg : Config) (cwd : String)
    (denied : List Key) (now : Nat) (st : CmdState) (path op : String)
    (fs1 fs2 fs3 : Fs) (e : String)
    (hexp : ExpandPath cfg cwd path = Except.ok op)
    (hpe : PathExists st.fs op = true)
    (hih : IsInsideHome cfg cwd op = true)
    (hmk : osMkdirAll st.fs cfg.dotmanDir = (fs1, none))
    (hnm : IsManaged (indexLoad st.store) op = false)
    (hmv : MoveToRepo fs1 op (goJoin cfg.dotmanDir (goRelStr cfg.homeDir op)) = (fs2, none))
    (hmk2 : osMkdirAll fs2 (goDir op) = (fs3, none))
    (hsl : osSymlink denied fs3 (goJoin cfg.dotmanDir (goRelStr cfg.homeDir op)) op =
      (fs3, some e))
    (hcanp : IsCanon op)
    (hne : pathKey op ≠ pathKey (goJoin cfg.dotmanDir (goRelStr cfg.homeDir op)))
    (hpnil : pathKey op ≠ [])
    (hrnil : pathKey (goJoin cfg.dotmanDir (goRelStr cfg.homeDir op)) ≠ []) :
    (runAdd cfg cwd denied now st path).2 = some ("failed to create symlink: " ++ e) ∧
    (runAdd cfg cwd denied now st path).1.store = st.store ∧
    (∀ k, pathKey op <+: k →
      lookupKey (runAdd cfg cwd denied now st path).1.fs k = lookupKey fs1 k) ∧
    (∀ k, pathKey (goJoin cfg.dotmanDir (goRelStr cfg.homeDir op)) <+: k →
      lookupKey (runAdd cfg cwd denied now st path).1.fs k = none) := by
  obtain ⟨fsm, hmkm, hrn⟩ := moveToRepo_ok hmv
  have hcore := add_rollback_core hmkm hrn hmk2 hcanp (isCanon_goJoin _ _) hne hpnil hrnil
  rw [runAdd_symlink_err_eq cfg cwd denied now st path op fs1 fs2 fs3 e
    hexp hpe hih hmk hnm hmv hmk2 hsl]
  refine ⟨rfl, rfl, ?_, ?_⟩
  · intro k hk
    show lookupKey (osRename fs3 (goJoin cfg.dotmanDir (goRelStr cfg.homeDir op)) op).1 k =
      lookupKey fs1 k
    rw [hcore.1]
    exact hcore.2.1 k hk
  · intro k hk
    show lookupKey (osRename fs3 (goJoin cfg.dotmanDir (goRelStr cfg.homeDir op)) op).1 k =
      none
    rw [hcore.1]
    exact hcore.2.2 k hk

theorem C4_witness :
    (runAdd exCfg "/home/u" wDenied 7 exSt "~/.bashrc").2 =
      some ("failed to create symlink: " ++ "permission denied") ∧
    (runAdd exCfg "/home/u" wDenied 7 exSt "~/.bashrc").1.store = exSt.store ∧
    lookupKey (runAdd exCfg "/home/u" wDenied 7 exSt "~/.bashrc").1.fs
      (pathKey "/home/u/.bashrc") = lookupKey wFs1 (pathKey "/home/u/.bashrc") :=
  ⟨(C4_symlink_failure_rolls_back_move exCfg "/home/u" wDenied 7 exSt "~/.bashrc"
      "/home/u/.bashrc" wFs1 wFs2 wFs3 "permission denied" (by rfl) (by rfl) (by rfl)
      (by rfl) (by rfl) (by rfl) (by rfl) (by rfl) (by decide) (by decide) (by decide)
      (by decide)).1,
   (C4_symlink_failure_rolls_back_move exCfg "/home/u" wDenied 7 exSt "~/.bashrc"
      "/home/u/.bashrc" wFs1 wFs2 wFs3 "permission denied" (by rfl) (by rfl) (by rfl)
      (by rfl) (by rfl) (by rfl) (by rfl) (by rfl) (by decide) (by decide) (by decide)
      (by decide)).2.1,
   (C4_symlink_failure_rolls_back_move exCfg "/home/u" wDenied 7 exSt "~/.bashrc"
      "/home/u/.bashrc" wFs1 wFs2 wFs3 "permission denied" (by rfl) (by rfl) (by rfl)
      (by rfl) (by rfl) (by rfl) (by rfl) (by rfl) (by decide) (by decide) (by decide)
      (by decide)).2.2.1 (pathKey "/home/u/.bashrc") (List.prefix_refl _)⟩

theorem runAdd_ok_eq (cfg : Config) (cwd : String) (denied : List Key)
    (now : Nat) (st : CmdState) (path op : String) (fs1 fs2 fs3 : Fs)
    (hexp : ExpandPath cfg cwd path = Except.ok op)
    (hpe : PathExists st.fs op = true)
    (hih : IsInsideHome cfg cwd op = true)
    (hmk : osMkdirAll st.fs cfg.dotmanDir = (fs1, none))
    (hnm : IsManaged (indexLoad st.store) op = false)
    (hmv : MoveToRepo fs1 op (goJoin cfg.dotmanDir (goRelStr cfg.homeDir op)) = (fs2, none))
    (hcs : CreateSymlink denied fs2 op (goJoin cfg.dotmanDir (goRelStr cfg.homeDir op)) =
      (fs3, none)) :
    runAdd cfg cwd denied now st path =
      (⟨fs3, some (AddFile (indexLoad st.store) op (goRelStr cfg.homeDir op)
        (GetFileType fs1 op) now)⟩, none) := by
  have hrel : RelativeToHome cfg cwd op = Except.ok (goRelStr cfg.homeDir op) := by
    unfold RelativeToHome
    rw [if_pos (show IsInsideHome cfg cwd op = true from hih)]
  unfold runAdd
  rw [hexp]
  dsimp only
  rw [if_neg (by rw [hpe]; simp), if_neg (by rw [hih]; simp), hmk]
  dsimp only
  rw [if_neg (by rw [hnm]; simp), hrel]
  dsimp only
  rw [hmv]
  dsimp only
  rw [hcs]

/-- Claim C3: running add on a fresh, existing path inside home and then
immediately running remove on the same path restores the prior state: the
remove succeeds, every lookup under the original path is as it was just
before the move (in particular the original node — content and permission
bits — sits at the original path again), no symlink remains there, the
stored copy's subtree is empty, and the stored manifest carries exactly
the records it held before the add. -/
theorem C3_add_remove_round_trip (cfg : Config) (cwd : String) (denied : List Key)
    (now : Nat) (st : CmdState) (path op : String) (fs1 fs2 fs3 : Fs) (n0 : FNode)
    (hexp : ExpandPath cfg cwd path = Except.ok op)
    (hpe : PathExists st.fs op = true)
    (hih : IsInsideHome cfg cwd op = true)
    (hmk : osMkdirAll st.fs cfg.dotmanDir = (fs1, none))
    (hnm : IsManaged (indexLoad st.store) op = false)
    (hmv : MoveToRepo fs1 op (goJoin cfg.dotmanDir (goRelStr cfg.homeDir op)) = (fs2, none))
    (hcs : CreateSymlink denied fs2 op (goJoin cfg.dotmanDir (goRelStr cfg.homeDir op)) =
      (fs3, none))
    (hcanp : IsCanon op)
    (hne : pathKey op ≠ pathKey (goJoin cfg.dotmanDir (goRelStr cfg.homeDir op)))
    (hrnil : pathKey (goJoin cfg.dotmanDir (goRelStr cfg.homeDir op)) ≠ [])
    (horig : lookupKey st.fs (pathKey op) = some n0)
    (hnl : isLinkNode n0 = false) :
    (runRemove cfg cwd (runAdd cfg cwd denied now st path).1 path).2 = none ∧
    (∀ k, pathKey op <+: k →
      lookupKey (runRemove cfg cwd (runAdd cfg cwd denied now st path).1 path).1.fs k =
        lookupKey fs1 k) ∧
    lookupKey (runRemove cfg cwd (runAdd cfg cwd denied now st path).1 path).1.fs
      (pathKey op) = some n0 ∧
    IsSymlink (runRemove cfg cwd (runAdd cfg cwd denied now st path).1 path).1.fs op =
      false ∧
    (∀ k, pathKey (goJoin cfg.dotmanDir (goRelStr cfg.homeDir op)) <+: k →
      lookupKey (runRemove cfg cwd (runAdd cfg cwd denied now st path).1 path).1.fs k =
        none) ∧
    (runRemove cfg cwd (runAdd cfg cwd denied now st path).1 path).1.store =
      some ⟨(indexLoad st.store).version, (indexLoad st.store).managedFiles⟩ := by
  obtain ⟨fsm, hmkm, hrn⟩ := moveToRepo_ok hmv
  obtain ⟨fs2m, hmk2, hslk⟩ := createSymlink_ok hcs
  obtain ⟨hpnil, hl2m, hnden, hfs3⟩ := osSymlink_ok hslk
  have hcore := add_rollback_core hmkm hrn hmk2 hcanp (isCanon_goJoin _ _) hne hpnil hrnil
  have hfsP : lookupKey fs1 (pathKey op) = some n0 := by
    rcases osMkdirAll_lookup st.fs cfg.dotmanDir (pathKey op) with h1 | ⟨h1, _, _, _⟩
    · rw [hmk, horig] at h1
      exact h1
    · rw [horig] at h1
      simp at h1
  rw [runAdd_ok_eq cfg cwd denied now st path op fs1 fs2 fs3 hexp hpe hih hmk hnm hmv hcs]
  have hfind : FindFile (indexLoad (some (AddFile (indexLoad st.store) op
      (goRelStr cfg.homeDir op) (GetFileType fs1 op) now))) op =
      some ⟨op, goRelStr cfg.homeDir op, GetFileType fs1 op, now⟩ := by
    simp only [indexLoad]
    exact findFile_addFile_of_not_managed hnm
  have hrs : RemoveSymlink fs3 op (goJoin cfg.dotmanDir (goRelStr cfg.homeDir op)) =
      (renameTree fs2m (pathKey (goJoin cfg.dotmanDir (goRelStr cfg.homeDir op)))
        (pathKey op), none) := by
    unfold RemoveSymlink
    rw [hfs3]
    rw [show lstatPath ((pathKey op,
        FNode.link (goJoin cfg.dotmanDir (goRelStr cfg.homeDir op))) :: fs2m) op =
        some (FNode.link (goJoin cfg.dotmanDir (goRelStr cfg.homeDir op))) from by
      unfold lstatPath
      rw [lookupKey_cons, if_pos rfl]]
    dsimp only
    rw [if_neg (by simp [isLinkNode])]
    rw [osRemove_eval_nondir hpnil (show lookupKey ((pathKey op,
        FNode.link (goJoin cfg.dotmanDir (goRelStr cfg.homeDir op))) :: fs2m)
        (pathKey op) = some (FNode.link (goJoin cfg.dotmanDir
          (goRelStr cfg.homeDir op))) from by rw [lookupKey_cons, if_pos rfl])
      (by simp [isDirNode])]
    dsimp only
    rw [show eraseKey ((pathKey op, FNode.link (goJoin cfg.dotmanDir
        (goRelStr cfg.homeDir op))) :: fs2m) (pathKey op) = fs2m from by
      unfold eraseKey
      rw [List.filter_cons_of_neg (by simp)]
      have hr := eraseKey_eq_self_of_lookup_none hl2m
      unfold eraseKey at hr
      exact hr]
    rw [hcore.1]
  unfold runRemove
  rw [hexp]
  dsimp only
  rw [hfind]
  dsimp only
  rw [hrs]
  refine ⟨rfl, ?_, ?_, ?_, ?_, ?_⟩
  · intro k hk
    exact hcore.2.1 k hk
  · show lookupKey (renameTree fs2m
      (pathKey (goJoin cfg.dotmanDir (goRelStr cfg.homeDir op))) (pathKey op))
      (pathKey op) = some n0
    rw [hcore.2.1 (pathKey op) (List.prefix_refl _)]
    exact hfsP
  · show IsSymlink (renameTree fs2m
      (pathKey (goJoin cfg.dotmanDir (goRelStr cfg.homeDir op))) (pathKey op)) op = false
    unfold IsSymlink lstatPath
    rw [hcore.2.1 (pathKey op) (List.prefix_refl _), hfsP]
    exact hnl
  · intro k hk
    exact hcore.2.2 k hk
  · show some (RemoveFile (AddFile (indexLoad st.store) op (goRelStr cfg.homeDir op)
      (GetFileType fs1 op) now) op).1 =
      some ⟨(indexLoad st.store).version, (indexLoad st.store).managedFiles⟩
    have hrf : removeFirst ((indexLoad st.store).managedFiles ++
        [⟨op, goRelStr cfg.homeDir op, GetFileType fs1 op, now⟩]) op =
        ((indexLoad st.store).managedFiles, true) :=
      removeFirst_append_of_none (findFile_eq_none_of_not_managed hnm) rfl
    unfold RemoveFile AddFile
    dsimp only
    rw [hrf]

theorem C3_witness :
    (runRemove exCfg "/home/u" (runAdd exCfg "/home/u" [] 7 exSt "~/.bashrc").1
      "~/.bashrc").2 = none ∧
    lookupKey (runRemove exCfg "/home/u" (runAdd exCfg "/home/u" [] 7 exSt
      "~/.bashrc").1 "~/.bashrc").1.fs (pathKey "/home/u/.bashrc") =
      some (FNode.file "alias ll" 420) ∧
    IsSymlink (runRemove exCfg "/home/u" (runAdd exCfg "/home/u" [] 7 exSt
      "~/.bashrc").1 "~/.bashrc").1.fs "/home/u/.bashrc" = false ∧
    (runRemove exCfg "/home/u" (runAdd exCfg "/home/u" [] 7 exSt "~/.bashrc").1
      "~/.bashrc").1.store = some ⟨"1.0", []⟩ :=
  ⟨(C3_add_remove_round_trip exCfg "/home/u" [] 7 exSt "~/.bashrc" "/home/u/.bashrc"
      wFs1 wFs2 vFs3 (FNode.file "alias ll" 420) (by rfl) (by rfl) (by rfl) (by rfl)
      (by rfl) (by rfl) (by rfl) (by decide) (by decide) (by decide) (by rfl)
      (by rfl)).1,
   (C3_add_remove_round_trip exCfg "/home/u" [] 7 exSt "~/.bashrc" "/home/u/.bashrc"
      wFs1 wFs2 vFs3 (FNode.file "alias ll" 420) (by rfl) (by rfl) (by rfl) (by rfl)
      (by rfl) (by rfl) (by rfl) (by decide) (by decide) (by decide) (by rfl)
      (by rfl)).2.2.1,
   (C3_add_remove_round_trip exCfg "/home/u" [] 7 exSt "~/.bashrc" "/home/u/.bashrc"
      wFs1 wFs2 vFs3 (FNode.file "alias ll" 420) (by rfl) (by rfl) (by rfl) (by rfl)
      (by rfl) (by rfl) (by rfl) (by decide) (by decide) (by decide) (by rfl)
      (by rfl)).2.2.2.1,
   (C3_add_remove_round_trip exCfg "/home/u" [] 7 exSt "~/.bashrc" "/home/u/.bashrc"
      wFs1 wFs2 vFs3 (FNode.file "alias ll" 420) (by rfl) (by rfl) (by rfl) (by rfl)
      (by rfl) (by rfl) (by rfl) (by decide) (by decide) (by decide) (by rfl)
      (by rfl)).2.2.2.2.2⟩
